import Mathlib

/-!
Verification of the heads-up postflop poker engine and its ISMCTS support
modules (action codec, betting state machine, belief model, bandit
selection, rollout cache).

The Lean definitions below are shallow embeddings of the Python sources:
`poker/helpers/abstraction.py`, `poker/engine/simple_hu_postflop.py`,
`poker/helpers/cache.py`, `poker/ai/infoset.py`, `poker/ai/belief.py`.
Python machine integers are modelled as `Nat`/`Int`; functions that `raise`
are modelled as `Except`-valued functions.  Floating-point quantities that
only enter through order comparisons (the stack-to-pot-ratio test, UCB
scores) are modelled exactly over the rationals or the reals.
-/

set_option maxRecDepth 10000

namespace Poker

/-! ## Enums (`poker/helpers/abstraction.py`) -/

namespace Street

def PREFLOP : Nat := 0
def FLOP : Nat := 1
def TURN : Nat := 2
def RIVER : Nat := 3

end Street

namespace Act

def FOLD : Nat := 0
def CHECK : Nat := 1
def CALL : Nat := 2
def BET : Nat := 3
def RAISE : Nat := 4
def ALLIN : Nat := 5

end Act

namespace Player

def HERO : Nat := 0
def VILLAIN : Nat := 1

end Player

/-- Error values of the engine and codec (`ValueError` / `RuntimeError`
messages raised by the Python sources, abstracted into a small inductive). -/
inductive EngineError where
  /-- `ValueError(f"Illegal action {act} for state")` in `apply_action`. -/
  | illegalAction (act : Nat)
  /-- `ValueError("amount out of encodable range (0..2,097,151)")` in `Action.encode`. -/
  | encodeRange
  /-- `ValueError("Re-raises not allowed in this toy model")` in `apply_action`. -/
  | reRaise
  /-- `RuntimeError("Unhandled transition")` at the end of `apply_action`. -/
  | unhandled
  /-- `ValueError("Pot is larger than available stacks_bb in start_postflop_state")`. -/
  | potTooLarge
deriving DecidableEq, Repr

/-- Equality of `Except` results is decidable (used to evaluate the engine
on concrete inputs). -/
instance {α β : Type} [DecidableEq α] [DecidableEq β] : DecidableEq (Except α β) :=
  fun x y =>
    match x, y with
    | .error a, .error b =>
      if h : a = b then isTrue (by rw [h]) else isFalse (by intro hc; cases hc; exact h rfl)
    | .ok a, .ok b =>
      if h : a = b then isTrue (by rw [h]) else isFalse (by intro hc; cases hc; exact h rfl)
    | .error _, .ok _ => isFalse (by intro hc; cases hc)
    | .ok _, .error _ => isFalse (by intro hc; cases hc)

/-- Compact action record (`Action` dataclass).  `street`, `player`, `act`
are enum values (nonnegative in the source), `amount` is a chip count that
may in principle be any integer. -/
structure Action where
  street : Nat
  player : Nat
  act : Nat
  amount : Int
deriving DecidableEq, Repr

/-- `Action.encode`: packs into a single integer,
bits `[street:2][player:6][act:3][amount:21]`; raises when the amount is
negative or does not fit in 21 bits. -/
def Action.encode (a : Action) : Except EngineError Nat :=
  if a.amount < 0 ∨ a.amount ≥ (2 ^ 21 : Int) then .error .encodeRange
  else
    .ok ((((a.street &&& 3) <<< 30) ||| ((a.player &&& 63) <<< 24) |||
          ((a.act &&& 7) <<< 21)) ||| (a.amount.toNat &&& (2 ^ 21 - 1)))

/-- `Action.decode`: unpacks the integer produced by `Action.encode`. -/
def Action.decode (x : Nat) : Action :=
  { street := (x >>> 30) &&& 3
    player := (x >>> 24) &&& 63
    act := (x >>> 21) &&& 7
    amount := Int.ofNat (x &&& (2 ^ 21 - 1)) }

/-! ## Game state (`poker/helpers/abstraction.py`) and engine
    (`poker/engine/simple_hu_postflop.py`) -/

/-- The `meta` dictionary carried on a `GameState`.  The engine reads and
writes exactly the keys `hero_start`, `villain_start`, `hero_invest`,
`villain_invest`, `terminal`, `winner`, `showdown`; an absent key maps to
its default (`dict.get(k, False)` / `None`). -/
structure Meta where
  hero_start : Int := 0
  villain_start : Int := 0
  hero_invest : Int := 0
  villain_invest : Int := 0
  terminal : Bool := false
  winner : Option Nat := none
  showdown : Bool := false
deriving DecidableEq, Repr

/-- `GameState` (public betting state).  The board is the padded 5-slot
card-id tuple, kept as an integer list here; card parsing is outside the
embedded core. -/
structure GameState where
  board : List Int
  street : Nat
  pot : Int
  hero_stack : Int
  villain_stack : Int
  to_act : Nat
  action_history : List Nat
  meta : Option Meta
deriving DecidableEq, Repr

/-- `GameState.apply_action`: functional update that appends the encoded
action and applies the chip deltas.  Propagates the `Action.encode` error. -/
def GameState.apply_action (gs : GameState) (action : Action)
    (pot_delta hero_stack_delta villain_stack_delta : Int) :
    Except EngineError GameState :=
  match action.encode with
  | .error e => .error e
  | .ok e =>
    .ok { gs with
          pot := gs.pot + pot_delta
          hero_stack := gs.hero_stack + hero_stack_delta
          villain_stack := gs.villain_stack + villain_stack_delta
          action_history := gs.action_history ++ [e] }

/-- `PublicState` of the engine: game state plus betting context. -/
structure PublicState where
  gs : GameState
  street_bet_open : Bool
  bet_by : Nat
  bet_amount : Int
  raises_this_street : Nat
deriving DecidableEq, Repr

/-- `start_postflop_state`.  The flop is passed as already-encoded card
ids; the returned `PrivateInfo` (hero's hole cards) plays no role in the
claims and is omitted. -/
def start_postflop_state (flop : List Int) (pot : Int := 3)
    (stacks_bb : Int := 100) (to_act : Nat := Player.HERO) :
    Except EngineError PublicState :=
  let hero_invest := Int.fdiv pot 2
  let villain_invest := pot - hero_invest
  let hero_stack0 := stacks_bb - hero_invest
  let villain_stack0 := stacks_bb - villain_invest
  if hero_stack0 < 0 ∨ villain_stack0 < 0 then .error .potTooLarge
  else
    .ok { gs := { board := flop
                  street := Street.FLOP
                  pot := pot
                  hero_stack := hero_stack0
                  villain_stack := villain_stack0
                  to_act := to_act
                  action_history := []
                  meta := some { hero_start := stacks_bb
                                 villain_start := stacks_bb
                                 hero_invest := hero_invest
                                 villain_invest := villain_invest } }
          street_bet_open := false
          bet_by := Player.HERO
          bet_amount := 0
          raises_this_street := 0 }

/-- `is_terminal`: `bool(ps.gs.meta and ps.gs.meta.get("terminal", False))`
(an absent meta or key reads as `False`, which is the `Meta` default). -/
def is_terminal (ps : PublicState) : Bool :=
  (ps.gs.meta.getD {}).terminal

/-- `legal_actions`. -/
def legal_actions (ps : PublicState) : List Nat :=
  if is_terminal ps then []
  else if ps.street_bet_open = false then [Act.CHECK, Act.BET, Act.ALLIN]
  else if ps.raises_this_street = 0 then [Act.CALL, Act.FOLD, Act.ALLIN, Act.RAISE]
  else [Act.CALL, Act.FOLD, Act.ALLIN]

/-- `half_pot_bet_size` (`pot // 2` is Python floor division). -/
def half_pot_bet_size (pot : Int) : Int :=
  max 1 (Int.fdiv pot 2)

/-- `terminal_winner` (an absent meta or key reads as `None`, the `Meta`
default). -/
def terminal_winner (ps : PublicState) : Option Nat :=
  if is_terminal ps = false then none
  else (ps.gs.meta.getD {}).winner

/-- `_replace_to_act`. -/
def _replace_to_act (gs : GameState) (to_act : Nat) : GameState :=
  { gs with to_act := to_act }

/-- `_with_terminal`. -/
def _with_terminal (gs : GameState) (winner : Nat) : GameState :=
  { gs with meta := some { gs.meta.getD {} with terminal := true, winner := some winner } }

/-- `_advance_street`. -/
def _advance_street (gs : GameState) (next_to_act : Nat) : GameState :=
  if gs.street ≥ Street.RIVER then
    { gs with to_act := next_to_act
              meta := some { gs.meta.getD {} with showdown := true, terminal := true } }
  else
    { gs with street := gs.street + 1, to_act := next_to_act }

/-- `swap_player` (local helper inside `apply_action`). -/
def swap_player (x : Nat) : Nat :=
  if x = Player.HERO then Player.VILLAIN else Player.HERO

/-- `stack_of` (local helper inside `apply_action`). -/
def stack_of (gs : GameState) (player : Nat) : Int :=
  if player = Player.HERO then gs.hero_stack else gs.villain_stack

/-- `_apply_put_in` (local helper inside `apply_action`): put `amount` into
the pot immediately, recording action-kind `a`. -/
def _apply_put_in (gs0 : GameState) (player : Nat) (amount : Int) (a : Nat) :
    Except EngineError GameState :=
  gs0.apply_action
    { street := gs0.street, player := player, act := a, amount := amount }
    amount
    (if player = Player.HERO then -amount else 0)
    (if player = Player.VILLAIN then -amount else 0)

/-- `_should_shove_after_called` (local helper inside `apply_action`).
The source compares the float `eff / pot_after` against `0.5` (with
`pot_after <= 0` mapped to `inf`); for the integer chip counts the engine
manipulates this comparison is exactly `2 * eff < pot_after`, which is how
it is embedded here. -/
def _should_shove_after_called (pot_now hero_stack_now vill_stack_now : Int)
    (aggressor : Nat) (agg_put_in caller_put_in : Int) : Bool :=
  let hero_after := hero_stack_now -
    (if aggressor = Player.HERO then agg_put_in else caller_put_in)
  let vill_after := vill_stack_now -
    (if aggressor = Player.VILLAIN then agg_put_in else caller_put_in)
  let pot_after := pot_now + agg_put_in + caller_put_in
  let eff := min hero_after vill_after
  if pot_after ≤ 0 then false else decide (2 * eff < pot_after)

/-- The two-trailing-CHECKs test inside the CHECK branch of
`apply_action` (`hist[-1]`, `hist[-2]` inspected after the new action has
been appended). -/
def checksAdvance (street : Nat) (hist : List Nat) : Bool :=
  match hist.reverse with
  | e1 :: e2 :: _ =>
    let a1 := Action.decode e1
    let a2 := Action.decode e2
    decide (a1.act = Act.CHECK) && decide (a2.act = Act.CHECK) &&
      decide (a1.street = a2.street) && decide (a2.street = street)
  | _ => false

/-- Exception propagation of the Python call sites: run the effectful
transition, then build the successor state from its result. -/
def bindOk : Except EngineError GameState → (GameState → PublicState) →
    Except EngineError PublicState
  | .error e, _ => .error e
  | .ok gs2, k => .ok (k gs2)

/-- The CHECK branch of `apply_action` (no bet open this street). -/
def applyCheck (ps : PublicState) : Except EngineError PublicState :=
  let gs := ps.gs
  let p := gs.to_act
  bindOk (gs.apply_action
      { street := gs.street, player := p, act := Act.CHECK, amount := 0 } 0 0 0)
    fun gs2 =>
    if checksAdvance gs.street gs2.action_history then
      { gs := _advance_street gs2 Player.HERO
        street_bet_open := false
        bet_by := Player.HERO
        bet_amount := 0
        raises_this_street := 0 }
    else
      { gs := _replace_to_act gs2 (swap_player p)
        street_bet_open := false
        bet_by := Player.HERO
        bet_amount := 0
        raises_this_street := 0 }

/-- The BET / explicit-ALLIN branch of `apply_action` (no bet open this
street), including the auto-shove upgrade. -/
def applyBetOrAllin (ps : PublicState) (act : Nat) : Except EngineError PublicState :=
  let gs := ps.gs
  let p := gs.to_act
  let size0 := if act = Act.BET then half_pot_bet_size gs.pot else stack_of gs p
  let size1 := min size0 (stack_of gs p)
  let caller := swap_player p
  let call_amt := min size1 (stack_of gs caller)
  let shove := act = Act.BET ∧
    _should_shove_after_called gs.pot gs.hero_stack gs.villain_stack p size1 call_amt
  let size := if shove then stack_of gs p else size1
  let act2 := if shove then Act.ALLIN else act
  bindOk (_apply_put_in gs p size act2) fun gs2 =>
    { gs := _replace_to_act gs2 (swap_player p)
      street_bet_open := true
      bet_by := p
      bet_amount := size
      raises_this_street := 0 }

/-- The FOLD branch of `apply_action` (facing a bet). -/
def applyFold (ps : PublicState) : Except EngineError PublicState :=
  let gs := ps.gs
  let p := gs.to_act
  bindOk (gs.apply_action
      { street := gs.street, player := p, act := Act.FOLD, amount := 0 } 0 0 0)
    fun gs2 =>
    { gs := _with_terminal gs2 (swap_player p)
      street_bet_open := true
      bet_by := ps.bet_by
      bet_amount := ps.bet_amount
      raises_this_street := ps.raises_this_street }

/-- The CALL branch of `apply_action` (facing a bet). -/
def applyCall (ps : PublicState) : Except EngineError PublicState :=
  let gs := ps.gs
  let p := gs.to_act
  let to_call := ps.bet_amount
  let call_amt := min to_call (stack_of gs p)
  bindOk (_apply_put_in gs p call_amt Act.CALL) fun gs2 =>
    { gs := _advance_street gs2 Player.HERO
      street_bet_open := false
      bet_by := Player.HERO
      bet_amount := 0
      raises_this_street := 0 }

/-- The ALLIN branch of `apply_action` when facing a bet: a short stack
degenerates to an all-in CALL, otherwise the all-in re-opens the betting
as a raise. -/
def applyAllinFacing (ps : PublicState) : Except EngineError PublicState :=
  let gs := ps.gs
  let p := gs.to_act
  let to_call := ps.bet_amount
  let allin_amt := stack_of gs p
  if allin_amt ≤ to_call then
    bindOk (_apply_put_in gs p allin_amt Act.CALL) fun gs2 =>
      { gs := _advance_street gs2 Player.HERO
        street_bet_open := false
        bet_by := Player.HERO
        bet_amount := 0
        raises_this_street := 0 }
  else
    bindOk (_apply_put_in gs p allin_amt Act.ALLIN) fun gs2 =>
      let caller := swap_player p
      let prev_invest := to_call
      let new_to_call := allin_amt - prev_invest
      { gs := _replace_to_act gs2 caller
        street_bet_open := true
        bet_by := p
        bet_amount := new_to_call
        raises_this_street := 1 }

/-- The RAISE branch of `apply_action` (facing a bet), including the
auto-shove upgrade and its short-stack CALL degeneration. -/
def applyRaise (ps : PublicState) : Except EngineError PublicState :=
  let gs := ps.gs
  let p := gs.to_act
  let to_call := ps.bet_amount
  if ps.raises_this_street ≠ 0 then .error .reRaise
  else
    let raise_to0 := 3 * to_call
    let raise_to1 := min raise_to0 (stack_of gs p)
    let caller := swap_player p
    let caller_extra := min (max 0 (raise_to1 - to_call)) (stack_of gs caller)
    if _should_shove_after_called gs.pot gs.hero_stack gs.villain_stack p
        raise_to1 caller_extra then
      let raise_to := stack_of gs p
      if raise_to ≤ to_call then
        bindOk (_apply_put_in gs p (min to_call (stack_of gs p)) Act.CALL) fun gs2 =>
          { gs := _advance_street gs2 Player.HERO
            street_bet_open := false
            bet_by := Player.HERO
            bet_amount := 0
            raises_this_street := 0 }
      else
        bindOk (_apply_put_in gs p raise_to Act.ALLIN) fun gs2 =>
          let new_to_call := raise_to - to_call
          { gs := _replace_to_act gs2 caller
            street_bet_open := true
            bet_by := p
            bet_amount := new_to_call
            raises_this_street := 1 }
    else
      bindOk (_apply_put_in gs p raise_to1 Act.RAISE) fun gs2 =>
        let new_to_call := raise_to1 - to_call
        { gs := _replace_to_act gs2 (swap_player p)
          street_bet_open := true
          bet_by := p
          bet_amount := new_to_call
          raises_this_street := 1 }

/-- `apply_action`: legality gate, then dispatch to the branch matching
the Python control flow; any fall-through is the source's
`RuntimeError("Unhandled transition")`. -/
def apply_action (ps : PublicState) (act : Nat) : Except EngineError PublicState :=
  if act ∉ legal_actions ps then .error (.illegalAction act)
  else if ps.street_bet_open = false then
    if act = Act.CHECK then applyCheck ps
    else if act = Act.BET ∨ act = Act.ALLIN then applyBetOrAllin ps act
    else .error .unhandled
  else
    if act = Act.FOLD then applyFold ps
    else if act = Act.CALL then applyCall ps
    else if act = Act.ALLIN then applyAllinFacing ps
    else if act = Act.RAISE then applyRaise ps
    else .error .unhandled


/-- Spec-side accessor: the `showdown` flag of the meta side-channel. -/
def showdown_flag (ps : PublicState) : Bool :=
  (ps.gs.meta.getD {}).showdown

/-- Spec-side predicate (C3/C10): the transition closed the street — the
bet is no longer open, the raise counter is reset, the player to act is
back to `HERO`, and the street advanced by one (or, when the street was
already `RIVER`, the showdown/terminal flags were set instead). -/
def closesStreet (ps ps' : PublicState) : Prop :=
  ps'.street_bet_open = false ∧
  ps'.raises_this_street = 0 ∧
  ps'.gs.to_act = Player.HERO ∧
  (ps.gs.street < Street.RIVER → ps'.gs.street = ps.gs.street + 1) ∧
  (Street.RIVER ≤ ps.gs.street →
    ps'.gs.street = ps.gs.street ∧ is_terminal ps' = true ∧ showdown_flag ps' = true)

/-- Concrete mid-hand state: the default `start_postflop_state` after one
hero CHECK (villain to act on the flop). -/
def checkState1 : PublicState :=
  { gs := { board := [45, 22, 1]
            street := 1
            pot := 3
            hero_stack := 99
            villain_stack := 98
            to_act := 1
            action_history := [1075838976]
            meta := some { hero_start := 100, villain_start := 100,
                           hero_invest := 1, villain_invest := 2 } }
    street_bet_open := false
    bet_by := 0
    bet_amount := 0
    raises_this_street := 0 }

/-- `checkState1` after the second CHECK: the street advanced to the turn. -/
def checkState2 : PublicState :=
  { gs := { board := [45, 22, 1]
            street := 2
            pot := 3
            hero_stack := 99
            villain_stack := 98
            to_act := 0
            action_history := [1075838976, 1092616192]
            meta := some { hero_start := 100, villain_start := 100,
                           hero_invest := 1, villain_invest := 2 } }
    street_bet_open := false
    bet_by := 0
    bet_amount := 0
    raises_this_street := 0 }

/-- Spec-side predicate (C4, BET part): the committed BET size is
`max(1, pot/2)` clamped to the actor's stack, upgraded to an all-in of the
full stack when the after-call stack-to-pot ratio would drop below `0.5`. -/
def betSpec (ps ps' : PublicState) : Prop :=
  let gs := ps.gs
  let p := gs.to_act
  let size1 := min (half_pot_bet_size gs.pot) (stack_of gs p)
  let call_amt := min size1 (stack_of gs (swap_player p))
  let shove := _should_shove_after_called gs.pot gs.hero_stack gs.villain_stack p size1 call_amt
  let size := if shove then stack_of gs p else size1
  ∃ e, ps'.gs.action_history = gs.action_history ++ [e] ∧
    (Action.decode e).act = (if shove then Act.ALLIN else Act.BET) ∧
    (Action.decode e).amount = size ∧
    ps'.gs.pot = gs.pot + size ∧
    stack_of ps'.gs p = stack_of gs p - size ∧
    ps'.bet_amount = size ∧
    ps'.street_bet_open = true ∧
    ps'.bet_by = p ∧
    ps'.raises_this_street = 0 ∧
    ps'.gs.to_act = swap_player p

/-- Spec-side predicate (C4, RAISE part): the RAISE-to size is `3×` the
amount owed clamped to the actor's stack; when the after-call
stack-to-pot ratio would drop below `0.5` the raise becomes an all-in of
the full stack — recorded as ALLIN re-opening the betting when the stack
exceeds the amount owed, and otherwise committed as a street-closing
CALL of the whole stack. -/
def raiseSpec (ps ps' : PublicState) : Prop :=
  let gs := ps.gs
  let p := gs.to_act
  let to_call := ps.bet_amount
  let r1 := min (3 * to_call) (stack_of gs p)
  let caller_extra := min (max 0 (r1 - to_call)) (stack_of gs (swap_player p))
  let shove := _should_shove_after_called gs.pot gs.hero_stack gs.villain_stack p r1 caller_extra
  if shove then
    if stack_of gs p ≤ to_call then
      ∃ e, ps'.gs.action_history = gs.action_history ++ [e] ∧
        (Action.decode e).act = Act.CALL ∧
        (Action.decode e).amount = min to_call (stack_of gs p) ∧
        ps'.gs.pot = gs.pot + min to_call (stack_of gs p) ∧
        stack_of ps'.gs p = stack_of gs p - min to_call (stack_of gs p) ∧
        closesStreet ps ps'
    else
      ∃ e, ps'.gs.action_history = gs.action_history ++ [e] ∧
        (Action.decode e).act = Act.ALLIN ∧
        (Action.decode e).amount = stack_of gs p ∧
        ps'.gs.pot = gs.pot + stack_of gs p ∧
        stack_of ps'.gs p = 0 ∧
        ps'.bet_amount = stack_of gs p - to_call ∧
        ps'.street_bet_open = true ∧
        ps'.bet_by = p ∧
        ps'.raises_this_street = 1 ∧
        ps'.gs.to_act = swap_player p
  else
    ∃ e, ps'.gs.action_history = gs.action_history ++ [e] ∧
      (Action.decode e).act = Act.RAISE ∧
      (Action.decode e).amount = r1 ∧
      ps'.gs.pot = gs.pot + r1 ∧
      stack_of ps'.gs p = stack_of gs p - r1 ∧
      ps'.bet_amount = r1 - to_call ∧
      ps'.street_bet_open = true ∧
      ps'.bet_by = p ∧
      ps'.raises_this_street = 1 ∧
      ps'.gs.to_act = swap_player p

/-- Concrete C4 edge state: the actor faces a bet of 50 with only a 30
stack, RAISE is legal (`raises_this_street = 0`). -/
def raiseShortState : PublicState :=
  { gs := { board := [45, 22, 1], street := 1, pot := 100, hero_stack := 30,
            villain_stack := 50, to_act := 0, action_history := [], meta := none }
    street_bet_open := true
    bet_by := 1
    bet_amount := 50
    raises_this_street := 0 }

/-- What the engine produces from `raiseShortState` on RAISE: an all-in
CALL of the 30-chip stack that closes the street. -/
def raiseShortResult : PublicState :=
  { gs := { board := [45, 22, 1], street := 2, pot := 130, hero_stack := 0,
            villain_stack := 50, to_act := 0, action_history := [1077936158],
            meta := none }
    street_bet_open := false
    bet_by := 0
    bet_amount := 0
    raises_this_street := 0 }

/-- `checkState1` after villain's half-pot BET of 1 chip. -/
def betResult : PublicState :=
  { gs := { board := [45, 22, 1]
            street := 1
            pot := 4
            hero_stack := 99
            villain_stack := 97
            to_act := 0
            action_history := [1075838976, 1096810497]
            meta := some { hero_start := 100, villain_start := 100,
                           hero_invest := 1, villain_invest := 2 } }
    street_bet_open := true
    bet_by := 1
    bet_amount := 1
    raises_this_street := 0 }


/-- Spec-side predicate (C10): an ALLIN taken while facing an open bet is
an all-in CALL of the whole stack that closes the street when the stack
does not exceed the amount owed, and otherwise acts as a raise that
re-opens the betting toward the original bettor. -/
def allinSpec (ps ps' : PublicState) : Prop :=
  let gs := ps.gs
  let p := gs.to_act
  let to_call := ps.bet_amount
  if stack_of gs p ≤ to_call then
    ∃ e, ps'.gs.action_history = gs.action_history ++ [e] ∧
      (Action.decode e).act = Act.CALL ∧
      (Action.decode e).amount = stack_of gs p ∧
      ps'.gs.pot = gs.pot + stack_of gs p ∧
      closesStreet ps ps'
  else
    ∃ e, ps'.gs.action_history = gs.action_history ++ [e] ∧
      (Action.decode e).act = Act.ALLIN ∧
      (Action.decode e).amount = stack_of gs p ∧
      ps'.gs.pot = gs.pot + stack_of gs p ∧
      ps'.street_bet_open = true ∧
      ps'.raises_this_street = 1 ∧
      ps'.bet_by = p ∧
      ps'.bet_amount = stack_of gs p - to_call ∧
      ps'.gs.to_act = swap_player p

/-- Concrete C10 edge state: short-stack ALLIN facing a river bet. -/
def allinRiverState : PublicState :=
  { gs := { board := [45, 22, 1, 2, 3], street := 3, pot := 100, hero_stack := 30,
            villain_stack := 50, to_act := 0, action_history := [], meta := none }
    street_bet_open := true
    bet_by := 1
    bet_amount := 50
    raises_this_street := 0 }

/-- The engine's result from `allinRiverState` on ALLIN: an all-in CALL
that sets the showdown/terminal flags without advancing the street. -/
def allinRiverResult : PublicState :=
  { gs := { board := [45, 22, 1, 2, 3], street := 3, pot := 130, hero_stack := 0,
            villain_stack := 50, to_act := 0, action_history := [3225419806],
            meta := some { terminal := true, showdown := true } }
    street_bet_open := false
    bet_by := 0
    bet_amount := 0
    raises_this_street := 0 }

/-- Concrete C10 state with a big stack: ALLIN re-opens the betting. -/
def allinBigState : PublicState :=
  { gs := { board := [45, 22, 1], street := 1, pot := 20, hero_stack := 80,
            villain_stack := 40, to_act := 0, action_history := [], meta := none }
    street_bet_open := true
    bet_by := 1
    bet_amount := 10
    raises_this_street := 0 }

/-- The engine's result from `allinBigState` on ALLIN. -/
def allinBigResult : PublicState :=
  { gs := { board := [45, 22, 1], street := 1, pot := 100, hero_stack := 0,
            villain_stack := 40, to_act := 1, action_history := [1084227664],
            meta := none }
    street_bet_open := true
    bet_by := 0
    bet_amount := 70
    raises_this_street := 1 }


/-- Total chips in play: pot plus both stacks (the conserved quantity of
every transition). -/
def chipSum (gs : GameState) : Int :=
  gs.pot + gs.hero_stack + gs.villain_stack

/-- `ISMCTS._hero_chip_ev_terminal` (`poker/ai/ismcts.py`): hero's terminal
chip EV — win takes the whole pot, loss keeps the current stack, a tie
takes the integer-truncated half pot; always relative to
`meta["hero_start"]`. -/
def _hero_chip_ev_terminal (gs : GameState) (hero_wins : Option Bool) : Int :=
  let meta := gs.meta.getD {}
  let hero_start := meta.hero_start
  let pot := gs.pot
  let hero_stack := gs.hero_stack
  let hero_final :=
    match hero_wins with
    | some true => hero_stack + pot
    | some false => hero_stack
    | none => hero_stack + Int.fdiv pot 2
  hero_final - hero_start

/-- `_terminal_result` (`scripts/selfplay_collect.py`), identically
`_award_pot` (`scripts/play_vs_agent_worker.py`): villain's terminal
net — a hero win leaves the stack, a villain win takes the whole pot,
and a tie takes `pot - pot // 2` (the remainder after hero's truncated
half, so the pot is distributed exactly) — relative to the villain's
starting stack, supplied here from `meta["villain_start"]` (the
starting stack `start_postflop_state` records). -/
def villain_chip_ev_terminal (gs : GameState) (hero_wins : Option Bool) : Int :=
  let meta := gs.meta.getD {}
  let villain_start := meta.villain_start
  let pot := gs.pot
  let villain_stack := gs.villain_stack
  let villain_final :=
    match hero_wins with
    | some true => villain_stack
    | some false => villain_stack + pot
    | none => villain_stack + (pot - Int.fdiv pot 2)
  villain_final - villain_start

/-- Spec-side driver: fold a list of actions through `apply_action`
(a hand played through legal transitions). -/
def play (ps : PublicState) : List Nat → Except EngineError PublicState
  | [] => .ok ps
  | a :: rest =>
    match apply_action ps a with
    | .error e => .error e
    | .ok ps2 => play ps2 rest

/-- The default postflop start (`pot = 3`, `stacks_bb = 100`, hero first). -/
def startState : PublicState :=
  { gs := { board := [45, 22, 1]
            street := 1
            pot := 3
            hero_stack := 99
            villain_stack := 98
            to_act := 0
            action_history := []
            meta := some { hero_start := 100, villain_start := 100,
                           hero_invest := 1, villain_invest := 2 } }
    street_bet_open := false
    bet_by := 0
    bet_amount := 0
    raises_this_street := 0 }

/-- `startState` checked down to the river showdown (six CHECKs). -/
def tieState : PublicState :=
  { gs := { board := [45, 22, 1]
            street := 3
            pot := 3
            hero_stack := 99
            villain_stack := 98
            to_act := 0
            action_history := [1075838976, 1092616192, 2149580800, 2166358016,
                               3223322624, 3240099840]
            meta := some { hero_start := 100, villain_start := 100,
                           hero_invest := 1, villain_invest := 2,
                           terminal := true, showdown := true } }
    street_bet_open := false
    bet_by := 0
    bet_amount := 0
    raises_this_street := 0 }


/-! ## Rollout cache (`poker/helpers/cache.py`) -/

/-- `RolloutStats`: running mean EV for a key.  The float mean is modelled
exactly over the rationals. -/
structure RolloutStats where
  n : Nat := 0
  mean_ev : ℚ := 0
deriving DecidableEq, Repr

/-- `RolloutStats.update`: incremental running mean. -/
def RolloutStats.update (s : RolloutStats) (ev : ℚ) : RolloutStats :=
  let n' := s.n + 1
  { n := n', mean_ev := s.mean_ev + (ev - s.mean_ev) / (n' : ℚ) }

/-- Apply a sequence of `update`s to one `RolloutStats`. -/
def statsRun (s : RolloutStats) : List ℚ → RolloutStats
  | [] => s
  | v :: vs => statsRun (s.update v) vs

/-- Ordered-dictionary lookup (`OrderedDict.get`): first binding of `k`. -/
def odLookup {K : Type} [DecidableEq K] : List (K × RolloutStats) → K → Option RolloutStats
  | [], _ => none
  | (k', v) :: rest, k => if k' = k then some v else odLookup rest k

/-- Removal of a key's binding (`del` inside `move_to_end`); bindings are
unique in an `OrderedDict`, so removing every occurrence is the same
operation. -/
def odErase {K : Type} [DecidableEq K] (l : List (K × RolloutStats)) (k : K) :
    List (K × RolloutStats) :=
  l.filter (fun kv => !(kv.1 = k))

/-- Overwrite the value stored at a key (the in-place mutation performed
by `update` on the shared `RolloutStats` object). -/
def odSet {K : Type} [DecidableEq K] (l : List (K × RolloutStats)) (k : K)
    (v : RolloutStats) : List (K × RolloutStats) :=
  l.map (fun kv => if kv.1 = k then (k, v) else kv)

/-- `LRUTranspoTable`: the `OrderedDict` is modelled as an association
list in recency order — head is least recently used, tail most recent. -/
structure LRUTranspoTable (K : Type) where
  capacity : Nat
  od : List (K × RolloutStats)
  hits : Nat := 0
  misses : Nat := 0
  evictions : Nat := 0
deriving DecidableEq, Repr

/-- `_evict_if_needed`: pop from the front while over capacity. -/
def _evict_if_needed (cap : Nat) : List (K × RolloutStats) → List (K × RolloutStats)
  | [] => []
  | x :: rest =>
    if (x :: rest).length > cap then _evict_if_needed cap rest else x :: rest

/-- `LRUTranspoTable.get`: return the stats if present and mark the key
most-recently used. -/
def LRUTranspoTable.get {K : Type} [DecidableEq K] (t : LRUTranspoTable K) (k : K) :
    Option RolloutStats × LRUTranspoTable K :=
  match odLookup t.od k with
  | none => (none, { t with misses := t.misses + 1 })
  | some v =>
    (some v, { t with hits := t.hits + 1, od := odErase t.od k ++ [(k, v)] })

/-- `LRUTranspoTable.get_or_create`: on a miss, insert fresh stats at the
most-recent end and evict down to capacity. -/
def LRUTranspoTable.get_or_create {K : Type} [DecidableEq K]
    (t : LRUTranspoTable K) (k : K) : RolloutStats × LRUTranspoTable K :=
  match t.get k with
  | (some v, t') => (v, t')
  | (none, t') =>
    let v : RolloutStats := {}
    let od' := t'.od ++ [(k, v)]
    let od2 := _evict_if_needed t'.capacity od'
    (v, { t' with od := od2, evictions := t'.evictions + (od'.length - od2.length) })

/-- `LRUTranspoTable.update`: `get_or_create` then fold the value into the
stored running mean (the Python object is mutated in place; here the new
stats are written back at the key). -/
def LRUTranspoTable.update {K : Type} [DecidableEq K]
    (t : LRUTranspoTable K) (k : K) (ev : ℚ) : RolloutStats × LRUTranspoTable K :=
  let r := t.get_or_create k
  let v' := r.1.update ev
  (v', { r.2 with od := odSet r.2.od k v' })

/-- Run a sequence of `update` calls for one key against the table. -/
def runUpdates {K : Type} [DecidableEq K] (t : LRUTranspoTable K) (k : K) :
    List ℚ → LRUTranspoTable K
  | [] => t
  | v :: vs => runUpdates (t.update k v).2 k vs


/-! ## Bandit nodes and UCB selection (`poker/ai/infoset.py`) -/

/-- `InfoNode`: per-infoset bandit statistics.  The Python dicts `na`/`wa`
are modelled as total functions; `ensure_actions` initializes a missing
key to zero, which is exactly the total-function default here.  Returns
are floats in the source, idealized as reals. -/
structure InfoNode where
  n : Nat := 0
  na : Nat → Nat := fun _ => 0
  wa : Nat → ℝ := fun _ => 0

/-- The UCB score of the selection loop:
`wa[a]/na[a] + exploration_c * sqrt(log(n + 1.0) / na[a])`. -/
noncomputable def ucbScore (node : InfoNode) (exploration_c : ℝ) (a : Nat) : ℝ :=
  node.wa a / (node.na a : ℝ) +
    exploration_c * Real.sqrt (Real.log ((node.n : ℝ) + 1) / (node.na a : ℝ))

/-- The first-play-urgency loop: the first action with zero visits. -/
def firstUnvisited (node : InfoNode) (acts : List Nat) : Option Nat :=
  acts.find? (fun a => node.na a == 0)

/-- `ucb_select_action`: an unvisited action first, otherwise the
first-best scan with initial best score `-1e100` (idealized as
`-(10^100)`); `none` models the final `assert best_a is not None`. -/
noncomputable def ucb_select_action (node : InfoNode) (acts : List Nat)
    (exploration_c : ℝ) : Option Nat :=
  match firstUnvisited node acts with
  | some a => some a
  | none =>
    (acts.foldl
      (fun st a =>
        if ucbScore node exploration_c a > st.2 then (some a, ucbScore node exploration_c a)
        else st)
      ((none : Option Nat), -(10 : ℝ) ^ 100)).1

/-- The statistics update performed after every selection in
`ISMCTS._iterate`: `node.n += 1; node.na[a] += 1; node.wa[a] += v`. -/
noncomputable def InfoNode.recordVisit (node : InfoNode) (a : Nat) (v : ℝ) : InfoNode :=
  { n := node.n + 1
    na := fun x => if x = a then node.na x + 1 else node.na x
    wa := fun x => if x = a then node.wa x + v else node.wa x }

/-- `k` successive selections, with the statistics updated after each
(returns the list of selected actions). -/
noncomputable def runSelections (c : ℝ) (vals : Nat → ℝ) (acts : List Nat) :
    Nat → InfoNode → List Nat
  | 0, _ => []
  | k + 1, node =>
    match ucb_select_action node acts c with
    | none => []
    | some a =>
      a :: runSelections c (fun i => vals (i + 1)) acts k (node.recordVisit a (vals 0))

/-! ## Belief ranges (`poker/ai/belief.py`) -/

/-- A villain range: hands (pairs of card ids) with weights.  Python's
`Dict[Hand, float]` is modelled as the association list of its entries
in insertion order; float weights are idealized as rationals. -/
abbrev Range : Type := List ((Nat × Nat) × ℚ)

/-- `sum(r.values())`. -/
def rangeSum (r : Range) : ℚ := (r.map (fun hw => hw.2)).sum

/-- `_renormalize`: multiply every weight by `1/s` for `s` the total,
unless the total is not positive. -/
def _renormalize (r : Range) : Range :=
  let s := rangeSum r
  if s ≤ 0 then r else r.map (fun hw => (hw.1, hw.2 * (1 / s)))

/-- `build_uniform_range`: every unordered pair from the remaining deck
in the double-loop order, each at weight `1.0`.  The card machinery
producing the remaining deck ids is abstracted as the id list itself. -/
def build_uniform_range : List Nat → Range
  | [] => []
  | x :: xs => (xs.map (fun y => ((x, y), (1 : ℚ)))) ++ build_uniform_range xs

/-- `ACTION_TOP_FRAC.get(act)`: `{BET: 0.80, RAISE: 0.30, ALLIN: 0.10}`. -/
def ACTION_TOP_FRAC (act : Nat) : Option ℚ :=
  if act = Act.BET then some (80 / 100)
  else if act = Act.RAISE then some (30 / 100)
  else if act = Act.ALLIN then some (10 / 100)
  else none

/-- `OUTSIDE_MULT.get(act, 0.25)`: `{BET: 1, RAISE: 0.8, ALLIN: 0.2}`. -/
def OUTSIDE_MULT (act : Nat) : ℚ :=
  if act = Act.BET then 1
  else if act = Act.RAISE then 8 / 10
  else if act = Act.ALLIN then 2 / 10
  else 25 / 100

/-- Python's `round` on a nonnegative argument: round half to even
(the float rounding is idealized as exact). -/
def roundHalfEven (q : ℚ) : ℤ :=
  if q - ⌊q⌋ < 1 / 2 then ⌊q⌋
  else if (1 : ℚ) / 2 < q - ⌊q⌋ then ⌊q⌋ + 1
  else if ⌊q⌋ % 2 = 0 then ⌊q⌋ else ⌊q⌋ + 1

/-- `cutoff_idx = max(1, int(round(top_frac * n)))`. -/
def cutoff_idx (top_frac : ℚ) (n : Nat) : Nat :=
  (max 1 (roundHalfEven (top_frac * n))).toNat

/-- The scored, stably descending-sorted items list of
`_apply_action_update` (`items.sort(key=lambda t: t[2], reverse=True)`);
the `bucket_score` heuristic over the board is abstracted as the
`score` parameter. -/
def scoredSort (score : Nat × Nat → ℤ) (r : Range) :
    List ((Nat × Nat) × ℚ × ℤ) :=
  (r.map (fun hw => (hw.1, hw.2, score hw.1))).mergeSort
    (fun x y => decide (y.2.2 ≤ x.2.2))

/-- The downweighting pass of `_apply_action_update`: hands in the top
set keep full weight (`w * 1.0`), every other hand is multiplied by
`m`. -/
def downweight (items : List ((Nat × Nat) × ℚ × ℤ)) (cutoff : Nat)
    (m : ℚ) : Range :=
  let top_set := (items.take cutoff).map (fun t => t.1)
  items.map (fun t =>
    if t.1 ∈ top_set then (t.1, t.2.1 * 1) else (t.1, t.2.1 * m))

/-- `_apply_action_update`: identity unless the action carries a top
fraction; otherwise sort by score, keep the top `cutoff_idx` hands at
full weight, downweight the rest and renormalize. -/
def _apply_action_update (score : Nat × Nat → ℤ) (r : Range) (act : Nat) :
    Range :=
  match ACTION_TOP_FRAC act with
  | none => r
  | some top_frac =>
    let items := scoredSort score r
    let n := items.length
    if n = 0 then r
    else _renormalize (downweight items (cutoff_idx top_frac n) (OUTSIDE_MULT act))

/-- `range_from_history_weighted`: start from the renormalized uniform
range, fold the recorded villain actions through
`_apply_action_update`, renormalize. -/
def range_from_history_weighted (score : Nat × Nat → ℤ)
    (deck_ids : List Nat) (history : List Nat) : Range :=
  _renormalize (history.foldl
    (fun r enc =>
      if (Action.decode enc).player ≠ Player.VILLAIN then r
      else _apply_action_update score r (Action.decode enc).act)
    (_renormalize (build_uniform_range deck_ids)))


/-! ## Codec lemmas and claims -/

/-- Masking with `2^n - 1` is the identity below `2^n`. -/
theorem mask_eq_self (n x m : Nat) (hm : 2 ^ n - 1 = m) (hx : x < 2 ^ n) :
    x &&& m = x := by
  subst hm
  rw [Nat.and_pow_two_sub_one_eq_mod x n]
  exact Nat.mod_eq_of_lt hx

/-- The three masked fields are below their field sizes. -/
theorem mask3_lt (x : Nat) : x &&& 3 < 4 := by
  have h := Nat.and_pow_two_sub_one_eq_mod x 2
  norm_num at h
  omega

theorem mask63_lt (x : Nat) : x &&& 63 < 64 := by
  have h := Nat.and_pow_two_sub_one_eq_mod x 6
  norm_num at h
  omega

theorem mask7_lt (x : Nat) : x &&& 7 < 8 := by
  have h := Nat.and_pow_two_sub_one_eq_mod x 3
  norm_num at h
  omega

/-- The shifted-or bit packing of `Action.encode` equals the additive
positional form when each field is below its field size. -/
theorem pack_or_eq_add (s p c amt : Nat)
    (_hs : s < 4) (hp : p < 64) (hc : c < 8) (hamt : amt < 2 ^ 21) :
    (((s <<< 30) ||| (p <<< 24) ||| (c <<< 21)) ||| amt)
      = s * 2 ^ 30 + p * 2 ^ 24 + c * 2 ^ 21 + amt := by
  rw [Nat.shiftLeft_eq, Nat.shiftLeft_eq, Nat.shiftLeft_eq]
  have s1 : s * 2 ^ 30 ||| p * 2 ^ 24 = 2 ^ 30 * s + p * 2 ^ 24 := by
    rw [Nat.mul_comm s]
    exact (Nat.mul_add_lt_is_or (by nlinarith) s).symm
  have s2 : 2 ^ 30 * s + p * 2 ^ 24 = 2 ^ 24 * (2 ^ 6 * s + p) := by ring
  have s3 : 2 ^ 24 * (2 ^ 6 * s + p) ||| c * 2 ^ 21
      = 2 ^ 24 * (2 ^ 6 * s + p) + c * 2 ^ 21 :=
    (Nat.mul_add_lt_is_or (by nlinarith) _).symm
  have s4 : 2 ^ 24 * (2 ^ 6 * s + p) + c * 2 ^ 21
      = 2 ^ 21 * (2 ^ 9 * s + 2 ^ 3 * p + c) := by ring
  have s5 : 2 ^ 21 * (2 ^ 9 * s + 2 ^ 3 * p + c) ||| amt
      = 2 ^ 21 * (2 ^ 9 * s + 2 ^ 3 * p + c) + amt :=
    (Nat.mul_add_lt_is_or hamt _).symm
  rw [s1, s2, s3, s4, s5]
  ring

/-- Whenever the amount is in the packed range, `Action.encode` succeeds,
with the masked fields in positional form. -/
theorem Action.encode_ok_general (a : Action)
    (h0 : 0 ≤ a.amount) (h1 : a.amount < 2 ^ 21) :
    a.encode = .ok ((a.street &&& 3) * 2 ^ 30 + (a.player &&& 63) * 2 ^ 24 +
      (a.act &&& 7) * 2 ^ 21 + a.amount.toNat) := by
  have hnot : ¬(a.amount < 0 ∨ a.amount ≥ (2 ^ 21 : Int)) := by push_neg; exact ⟨h0, h1⟩
  have htn : a.amount.toNat < 2 ^ 21 := by omega
  rw [Action.encode, if_neg hnot]
  congr 1
  rw [mask_eq_self 21 a.amount.toNat (2 ^ 21 - 1) rfl htn]
  exact pack_or_eq_add _ _ _ _ (mask3_lt _) (mask63_lt _) (mask7_lt _) htn

/-- Under the range hypotheses of the packed layout, `Action.encode`
succeeds and produces the additive form of the bit packing. -/
theorem Action.encode_eq_of_ranges (a : Action)
    (hs : a.street < 4) (hp : a.player < 64) (ha : a.act < 8)
    (h0 : 0 ≤ a.amount) (h1 : a.amount < 2 ^ 21) :
    a.encode =
      .ok (a.street * 2 ^ 30 + a.player * 2 ^ 24 + a.act * 2 ^ 21 + a.amount.toNat) := by
  rw [Action.encode_ok_general a h0 h1,
      mask_eq_self 2 a.street 3 (by norm_num) (by omega),
      mask_eq_self 6 a.player 63 (by norm_num) (by omega),
      mask_eq_self 3 a.act 7 (by norm_num) (by omega)]

/-- Decoding the additive packed form recovers the fields. -/
theorem Action.decode_packed (s p c amt : Nat)
    (hs : s < 4) (hp : p < 64) (hc : c < 8) (hamt : amt < 2 ^ 21) :
    Action.decode (s * 2 ^ 30 + p * 2 ^ 24 + c * 2 ^ 21 + amt) =
      { street := s, player := p, act := c, amount := Int.ofNat amt } := by
  set x := s * 2 ^ 30 + p * 2 ^ 24 + c * 2 ^ 21 + amt with hx
  have f1 : x >>> 30 &&& 3 = s := by
    have d := Nat.and_pow_two_sub_one_eq_mod (x >>> 30) 2
    rw [Nat.shiftRight_eq_div_pow] at d ⊢
    norm_num at d ⊢
    omega
  have f2 : x >>> 24 &&& 63 = p := by
    have d := Nat.and_pow_two_sub_one_eq_mod (x >>> 24) 6
    rw [Nat.shiftRight_eq_div_pow] at d ⊢
    norm_num at d ⊢
    omega
  have f3 : x >>> 21 &&& 7 = c := by
    have d := Nat.and_pow_two_sub_one_eq_mod (x >>> 21) 3
    rw [Nat.shiftRight_eq_div_pow] at d ⊢
    norm_num at d ⊢
    omega
  have f4 : x &&& (2 ^ 21 - 1) = amt := by
    have d := Nat.and_pow_two_sub_one_eq_mod x 21
    norm_num at d ⊢
    omega
  rw [Action.decode, f1, f2, f3, f4]

/-- General round trip: decoding an encoded action recovers the masked
fields (and the amount exactly, when in range). -/
theorem Action.decode_encode_general (a : Action)
    (h0 : 0 ≤ a.amount) (h1 : a.amount < 2 ^ 21) :
    ∃ x, a.encode = .ok x ∧
      Action.decode x =
        { street := a.street &&& 3, player := a.player &&& 63,
          act := a.act &&& 7, amount := a.amount } := by
  refine ⟨_, a.encode_ok_general h0 h1, ?_⟩
  rw [Action.decode_packed _ _ _ _ (mask3_lt _) (mask63_lt _) (mask7_lt _) (by omega)]
  congr 1
  exact Int.toNat_of_nonneg h0

/-- **C9.** For every `Action` whose fields lie in their packed bit-widths
(street in `0..3`, player in `0..63`, act in `0..7`, amount in
`0..2097151`): `Action.decode (a.encode) = a`; and `Action.encode` raises
an error if and only if the amount is negative or at least `2^21`. -/
theorem claim_C9 :
    (∀ a : Action, a.street < 4 → a.player < 64 → a.act < 8 →
      0 ≤ a.amount → a.amount < 2 ^ 21 →
      ∃ x, a.encode = .ok x ∧ Action.decode x = a) ∧
    (∀ a : Action, a.encode = .error .encodeRange ↔
      (a.amount < 0 ∨ (2 ^ 21 : Int) ≤ a.amount)) := by
  constructor
  · intro a hs hp hc h0 h1
    refine ⟨_, a.encode_eq_of_ranges hs hp hc h0 h1, ?_⟩
    rw [Action.decode_packed a.street a.player a.act a.amount.toNat hs hp hc (by omega)]
    have : Int.ofNat a.amount.toNat = a.amount := Int.toNat_of_nonneg h0
    rw [this]
  · intro a
    rw [Action.encode]
    constructor
    · intro h
      by_contra hcon
      push_neg at hcon
      rw [if_neg (by push_neg; exact ⟨hcon.1, hcon.2⟩)] at h
      exact Except.noConfusion h
    · intro h
      rw [if_pos (by omega)]

/-! ## C1, C2: legal actions and the illegal-action gate -/

/-- **C1.** For every non-terminal `PublicState`: with no open bet,
`legal_actions` returns exactly `{CHECK, BET, ALLIN}`; facing an open bet
it returns exactly `{CALL, FOLD, ALLIN}` together with `RAISE` if and only
if `raises_this_street = 0`. -/
theorem claim_C1 (ps : PublicState) (hterm : is_terminal ps = false) :
    (ps.street_bet_open = false →
      legal_actions ps = [Act.CHECK, Act.BET, Act.ALLIN]) ∧
    (ps.street_bet_open = true →
      (ps.raises_this_street = 0 →
        legal_actions ps = [Act.CALL, Act.FOLD, Act.ALLIN, Act.RAISE]) ∧
      (ps.raises_this_street ≠ 0 →
        legal_actions ps = [Act.CALL, Act.FOLD, Act.ALLIN]) ∧
      (Act.RAISE ∈ legal_actions ps ↔ ps.raises_this_street = 0)) := by
  refine ⟨fun hopen => ?_, fun hopen => ?_⟩
  · rw [legal_actions, hterm, hopen]
    simp
  · rw [legal_actions, hterm, hopen]
    refine ⟨fun hr => by simp [hr], fun hr => by simp [hr], ?_⟩
    constructor
    · intro hmem
      by_contra hr
      rw [if_neg hr] at hmem
      revert hmem
      decide
    · intro hr
      rw [if_pos hr]
      decide

/-- Witness for C1 at the concrete state produced by
`start_postflop_state` with the default arguments. -/
theorem claim_C1_witness :
    ∃ ps : PublicState, start_postflop_state [45, 22, 1] 3 100 Player.HERO = .ok ps ∧
      is_terminal ps = false ∧
      (ps.street_bet_open = false →
        legal_actions ps = [Act.CHECK, Act.BET, Act.ALLIN]) := by
  refine ⟨_, rfl, by decide, ?_⟩
  exact (claim_C1 _ (by decide)).1

/-- `Action.encode` only ever fails with the encoding-range error. -/
theorem Action.encode_err {a : Action} {e : EngineError}
    (h : a.encode = .error e) : e = .encodeRange := by
  rw [Action.encode] at h
  split at h
  · cases h; rfl
  · cases h

/-- `GameState.apply_action` only ever fails with the encoding-range error. -/
theorem GameState.apply_action_err {gs : GameState} {a : Action}
    {pd hd vd : Int} {e : EngineError}
    (h : gs.apply_action a pd hd vd = .error e) : e = .encodeRange := by
  rw [GameState.apply_action] at h
  split at h
  · cases h; exact Action.encode_err (by assumption)
  · cases h

/-- `_apply_put_in` only ever fails with the encoding-range error. -/
theorem _apply_put_in_err {gs : GameState} {p : Nat} {amt : Int} {a : Nat}
    {e : EngineError} (h : _apply_put_in gs p amt a = .error e) :
    e = .encodeRange := by
  rw [_apply_put_in] at h
  exact GameState.apply_action_err h

/-- `bindOk` fails exactly when the effectful call fails. -/
theorem bindOk_err {r : Except EngineError GameState} {k : GameState → PublicState}
    {e : EngineError} (h : bindOk r k = .error e) : r = .error e := by
  cases r with
  | error e2 => simp only [bindOk] at h; cases h; rfl
  | ok g => simp only [bindOk] at h; cases h

/-- `bindOk` on a successful call succeeds with the continuation's state. -/
theorem bindOk_ok {r : Except EngineError GameState} {k : GameState → PublicState}
    {g : GameState} (h : r = .ok g) : bindOk r k = .ok (k g) := by
  rw [h, bindOk]

theorem applyCheck_err {ps : PublicState} {e : EngineError}
    (h : applyCheck ps = .error e) : e = .encodeRange := by
  rw [applyCheck] at h
  exact GameState.apply_action_err (bindOk_err h)

theorem applyBetOrAllin_err {ps : PublicState} {act : Nat} {e : EngineError}
    (h : applyBetOrAllin ps act = .error e) : e = .encodeRange := by
  rw [applyBetOrAllin] at h
  exact _apply_put_in_err (bindOk_err h)

theorem applyFold_err {ps : PublicState} {e : EngineError}
    (h : applyFold ps = .error e) : e = .encodeRange := by
  rw [applyFold] at h
  exact GameState.apply_action_err (bindOk_err h)

theorem applyCall_err {ps : PublicState} {e : EngineError}
    (h : applyCall ps = .error e) : e = .encodeRange := by
  rw [applyCall] at h
  exact _apply_put_in_err (bindOk_err h)

theorem applyAllinFacing_err {ps : PublicState} {e : EngineError}
    (h : applyAllinFacing ps = .error e) : e = .encodeRange := by
  rw [applyAllinFacing] at h
  split at h
  · exact _apply_put_in_err (bindOk_err h)
  · exact _apply_put_in_err (bindOk_err h)

theorem applyRaise_err {ps : PublicState} {e : EngineError}
    (h : applyRaise ps = .error e) : e = .encodeRange ∨ e = .reRaise := by
  rw [applyRaise] at h
  simp only [] at h
  split at h
  · cases h; exact Or.inr rfl
  · split at h
    · split at h
      · exact Or.inl (_apply_put_in_err (bindOk_err h))
      · exact Or.inl (_apply_put_in_err (bindOk_err h))
    · exact Or.inl (_apply_put_in_err (bindOk_err h))

/-- **C2.** For every `PublicState` `s` and action `a`: `apply_action s a`
raises the "illegal action" error if and only if `a` is not in
`legal_actions s`.  (All transitions are pure `Except`-valued functions,
so an illegal action is rejected without producing any successor state and
the input state is untouched; no different action is ever substituted for
an illegal one.) -/
theorem claim_C2 (ps : PublicState) (a : Nat) :
    (∃ k, apply_action ps a = .error (.illegalAction k)) ↔ a ∉ legal_actions ps := by
  constructor
  · rintro ⟨k, h⟩
    intro hmem
    rw [apply_action, if_neg (by simpa using hmem)] at h
    split at h
    · split at h
      · exact absurd (applyCheck_err h) (by intro hc; cases hc)
      · split at h
        · exact absurd (applyBetOrAllin_err h) (by intro hc; cases hc)
        · cases h
    · split at h
      · exact absurd (applyFold_err h) (by intro hc; cases hc)
      · split at h
        · exact absurd (applyCall_err h) (by intro hc; cases hc)
        · split at h
          · exact absurd (applyAllinFacing_err h) (by intro hc; cases hc)
          · split at h
            · rcases applyRaise_err h with hc | hc <;> cases hc
            · cases h
  · intro hmem
    exact ⟨a, by rw [apply_action, if_pos hmem]⟩

/-- Witness for C9 at a concrete action. -/
theorem claim_C9_witness :
    (Action.street ⟨2, 1, 5, 77⟩ < 4 ∧ (0 : Int) ≤ 77 ∧ (77 : Int) < 2 ^ 21) ∧
    (∃ x, Action.encode ⟨2, 1, 5, 77⟩ = .ok x ∧ Action.decode x = ⟨2, 1, 5, 77⟩) :=
  ⟨⟨by norm_num, by norm_num, by norm_num⟩,
    claim_C9.1 ⟨2, 1, 5, 77⟩ (by norm_num) (by norm_num) (by norm_num)
      (by norm_num) (by norm_num)⟩

/-! ## C3: street closing -/

/-- `bindOk` succeeds exactly when the effectful call does. -/
theorem bindOk_eq_ok {r : Except EngineError GameState} {k : GameState → PublicState}
    {q : PublicState} (h : bindOk r k = .ok q) : ∃ g, r = .ok g ∧ q = k g := by
  cases r with
  | error e => simp only [bindOk] at h; cases h
  | ok g =>
    simp only [bindOk] at h
    cases h
    exact ⟨g, rfl, rfl⟩

/-- Successful `GameState.apply_action` appends the encoded action and
applies the deltas. -/
theorem GameState.apply_action_ok {gs : GameState} {a : Action} {pd hd vd : Int}
    {g : GameState} (h : gs.apply_action a pd hd vd = .ok g) :
    ∃ e, a.encode = .ok e ∧
      g = { gs with pot := gs.pot + pd
                    hero_stack := gs.hero_stack + hd
                    villain_stack := gs.villain_stack + vd
                    action_history := gs.action_history ++ [e] } := by
  rw [GameState.apply_action] at h
  split at h
  · cases h
  · cases h
    exact ⟨_, by assumption, rfl⟩

/-- Successful `_apply_put_in` moves `amount` from the actor's stack into
the pot and records the action. -/
theorem _apply_put_in_ok {gs : GameState} {p : Nat} {amt : Int} {a : Nat}
    {g : GameState} (h : _apply_put_in gs p amt a = .ok g) :
    ∃ e, Action.encode { street := gs.street, player := p, act := a, amount := amt }
        = .ok e ∧
      g = { gs with pot := gs.pot + amt
                    hero_stack := gs.hero_stack + (if p = Player.HERO then -amt else 0)
                    villain_stack := gs.villain_stack + (if p = Player.VILLAIN then -amt else 0)
                    action_history := gs.action_history ++ [e] } := by
  rw [_apply_put_in] at h
  exact GameState.apply_action_ok h

/-- Field behaviour of `_advance_street`. -/
theorem _advance_street_fields (g : GameState) (next : Nat) :
    (_advance_street g next).to_act = next ∧
    (g.street < Street.RIVER →
      (_advance_street g next).street = g.street + 1 ∧
      (_advance_street g next).meta = g.meta) ∧
    (Street.RIVER ≤ g.street →
      (_advance_street g next).street = g.street ∧
      (_advance_street g next).meta =
        some { g.meta.getD {} with showdown := true, terminal := true }) := by
  unfold _advance_street
  by_cases hc : g.street ≥ Street.RIVER
  · rw [if_pos hc]
    exact ⟨rfl, fun hlt => absurd hc (by omega), fun _ => ⟨rfl, rfl⟩⟩
  · rw [if_neg hc]
    exact ⟨rfl, fun _ => ⟨rfl, rfl⟩, fun hge => absurd hge (by omega)⟩

/-- A state built on `_advance_street` satisfies `closesStreet` whenever
its other fields are the reset values. -/
theorem closesStreet_of_advance {ps : PublicState} {g : GameState}
    (hstreet : g.street = ps.gs.street) :
    closesStreet ps
      { gs := _advance_street g Player.HERO
        street_bet_open := false
        bet_by := Player.HERO
        bet_amount := 0
        raises_this_street := 0 } := by
  obtain ⟨hta, hlt, hge⟩ := _advance_street_fields g Player.HERO
  refine ⟨rfl, rfl, hta, ?_, ?_⟩
  · intro h
    show (_advance_street g Player.HERO).street = ps.gs.street + 1
    rw [(hlt (by omega)).1, hstreet]
  · intro h
    obtain ⟨h1, h2⟩ := hge (by omega)
    refine ⟨?_, ?_, ?_⟩
    · show (_advance_street g Player.HERO).street = ps.gs.street
      rw [h1, hstreet]
    · show ((_advance_street g Player.HERO).meta.getD {}).terminal = true
      rw [h2]
      rfl
    · show ((_advance_street g Player.HERO).meta.getD {}).showdown = true
      rw [h2]
      rfl

/-- Successful `applyCall` closes the street. -/
theorem applyCall_closes {ps ps' : PublicState} (h : applyCall ps = .ok ps') :
    closesStreet ps ps' := by
  rw [applyCall] at h
  obtain ⟨g, hg, hps'⟩ := bindOk_eq_ok h
  obtain ⟨e, henc, hgeq⟩ := _apply_put_in_ok hg
  subst hps'
  exact closesStreet_of_advance (by rw [hgeq])

/-- Successful `applyCheck` closes the street when the previous recorded
action was a CHECK on the same street. -/
theorem applyCheck_closes {ps ps' : PublicState} {pre : List Nat} {e2 : Nat}
    (hst : ps.gs.street < 4)
    (hh : ps.gs.action_history = pre ++ [e2])
    (ha2 : (Action.decode e2).act = Act.CHECK)
    (hs2 : (Action.decode e2).street = ps.gs.street)
    (h : applyCheck ps = .ok ps') : closesStreet ps ps' := by
  rw [applyCheck] at h
  obtain ⟨g, hg, hps'⟩ := bindOk_eq_ok h
  obtain ⟨e, henc, hgeq⟩ := GameState.apply_action_ok hg
  obtain ⟨x, hx, hdx⟩ :=
    Action.decode_encode_general
      { street := ps.gs.street, player := ps.gs.to_act, act := Act.CHECK, amount := 0 }
      (by norm_num) (by norm_num)
  rw [henc] at hx
  cases hx
  have hmask : ps.gs.street &&& 3 = ps.gs.street :=
    mask_eq_self 2 ps.gs.street 3 (by norm_num) (by omega)
  have hadv : checksAdvance ps.gs.street g.action_history = true := by
    rw [hgeq]
    show checksAdvance ps.gs.street (ps.gs.action_history ++ [e]) = true
    rw [hh, checksAdvance]
    rw [List.append_assoc]
    simp only [List.reverse_append, List.reverse_cons, List.reverse_nil,
      List.nil_append, List.cons_append, List.singleton_append]
    rw [hdx]
    simp [ha2, hs2, hmask]
    decide
  subst hps'
  rw [if_pos hadv]
  exact closesStreet_of_advance (by rw [hgeq])

/-- An action that applies successfully was legal. -/
theorem apply_action_ok_mem {ps : PublicState} {act : Nat} {ps' : PublicState}
    (h : apply_action ps act = .ok ps') : act ∈ legal_actions ps := by
  by_contra hmem
  rw [apply_action, if_pos hmem] at h
  cases h

/-- Any legal action implies the state is non-terminal. -/
theorem legal_mem_not_terminal {ps : PublicState} {act : Nat}
    (h : act ∈ legal_actions ps) : is_terminal ps = false := by
  cases ht : is_terminal ps
  · rfl
  · rw [legal_actions, ht, if_pos rfl] at h
    cases h

/-- A legal CALL (or any bet-facing action) implies an open bet. -/
theorem legal_call_open {ps : PublicState} (h : Act.CALL ∈ legal_actions ps) :
    ps.street_bet_open = true := by
  rw [legal_actions] at h
  split at h
  · cases h
  · split at h
    · exact absurd h (by decide)
    · rename_i hopen
      cases hb : ps.street_bet_open
      · exact absurd hb hopen
      · rfl

/-- **C3.** A CHECK whose immediately preceding recorded action was a CHECK
on the same street, and any CALL, closes the street: the bet is no longer
open, `raises_this_street` resets to 0, the player to act resets to HERO,
and the street increments (or, already at RIVER, the showdown/terminal
flags are set instead). -/
theorem claim_C3 :
    (∀ (ps ps' : PublicState) (pre : List Nat) (e2 : Nat),
      ps.gs.street < 4 →
      ps.gs.action_history = pre ++ [e2] →
      (Action.decode e2).act = Act.CHECK →
      (Action.decode e2).street = ps.gs.street →
      apply_action ps Act.CHECK = .ok ps' →
      closesStreet ps ps') ∧
    (∀ ps ps' : PublicState,
      apply_action ps Act.CALL = .ok ps' →
      closesStreet ps ps') := by
  constructor
  · intro ps ps' pre e2 hst hh ha2 hs2 h
    have hmem := apply_action_ok_mem h
    have hterm := legal_mem_not_terminal hmem
    have hopen : ps.street_bet_open = false := by
      cases hb : ps.street_bet_open
      · rfl
      · rw [legal_actions, hterm, if_neg (by simp), hb, if_neg (by simp)] at hmem
        by_cases hr : ps.raises_this_street = 0
        · rw [if_pos hr] at hmem
          revert hmem
          decide
        · rw [if_neg hr] at hmem
          revert hmem
          decide
    rw [apply_action, if_neg (by simpa using hmem), if_pos hopen, if_pos rfl] at h
    exact applyCheck_closes hst hh ha2 hs2 h
  · intro ps ps' h
    have hmem := apply_action_ok_mem h
    have hopen := legal_call_open hmem
    rw [apply_action, if_neg (by simpa using hmem)] at h
    rw [if_neg (by rw [hopen]; simp)] at h
    rw [if_neg (by decide), if_pos rfl] at h
    exact applyCall_closes h

/-- Witness for C3: the second CHECK of the flop closes the street on a
concrete hand. -/
theorem claim_C3_witness :
    (checkState1.gs.street < 4 ∧
     checkState1.gs.action_history = [] ++ [1075838976] ∧
     (Action.decode 1075838976).act = Act.CHECK ∧
     (Action.decode 1075838976).street = checkState1.gs.street ∧
     apply_action checkState1 Act.CHECK = .ok checkState2) ∧
    closesStreet checkState1 checkState2 :=
  ⟨⟨by decide, by decide, by decide, by decide, by decide⟩,
   claim_C3.1 checkState1 checkState2 [] 1075838976
     (by decide) (by decide) (by decide) (by decide) (by decide)⟩

/-! ## C4: bet and raise sizing with the auto-shove rule -/

/-- Decoding any successfully encoded action yields the masked fields. -/
theorem Action.decode_of_encode_ok {a : Action} {e : Nat} (h : a.encode = .ok e) :
    Action.decode e =
      { street := a.street &&& 3, player := a.player &&& 63,
        act := a.act &&& 7, amount := a.amount } := by
  have hr : ¬(a.amount < 0 ∨ a.amount ≥ (2 ^ 21 : Int)) := by
    intro hc
    rw [Action.encode, if_pos hc] at h
    cases h
  push_neg at hr
  obtain ⟨x, hx, hdx⟩ := Action.decode_encode_general a hr.1 hr.2
  rw [h] at hx
  cases hx
  exact hdx

/-- `_advance_street` only changes `street`, `to_act` and `meta`. -/
theorem _advance_street_keeps (g : GameState) (n : Nat) :
    (_advance_street g n).action_history = g.action_history ∧
    (_advance_street g n).pot = g.pot ∧
    (_advance_street g n).hero_stack = g.hero_stack ∧
    (_advance_street g n).villain_stack = g.villain_stack := by
  unfold _advance_street
  split <;> exact ⟨rfl, rfl, rfl, rfl⟩

/-- Successful BET transitions satisfy the sizing / auto-shove spec. -/
theorem applyBetOrAllin_bet_spec {ps ps' : PublicState}
    (hp : ps.gs.to_act = Player.HERO ∨ ps.gs.to_act = Player.VILLAIN)
    (h : applyBetOrAllin ps Act.BET = .ok ps') : betSpec ps ps' := by
  rw [applyBetOrAllin] at h
  rw [betSpec]
  simp only [if_pos rfl, eq_self_iff_true, if_true, true_and] at h ⊢
  cases hsh : _should_shove_after_called ps.gs.pot ps.gs.hero_stack ps.gs.villain_stack
      ps.gs.to_act (min (half_pot_bet_size ps.gs.pot) (stack_of ps.gs ps.gs.to_act))
      (min (min (half_pot_bet_size ps.gs.pot) (stack_of ps.gs ps.gs.to_act))
        (stack_of ps.gs (swap_player ps.gs.to_act))) with
  | false =>
    simp only [hsh, Bool.false_eq_true, if_false] at h ⊢
    obtain ⟨g, hg, hps'⟩ := bindOk_eq_ok h
    obtain ⟨e, henc, hgeq⟩ := _apply_put_in_ok hg
    have hdx := Action.decode_of_encode_ok henc
    subst hps'
    subst hgeq
    refine ⟨e, rfl, ?_, ?_, rfl, ?_, rfl, rfl, rfl, rfl, rfl⟩
    · rw [hdx]
      exact (by decide : Act.BET &&& 7 = Act.BET)
    · rw [hdx]
    · rcases hp with hp | hp <;>
      · simp [stack_of, _replace_to_act, swap_player, hp]
        try omega
  | true =>
    simp only [hsh, if_true] at h ⊢
    obtain ⟨g, hg, hps'⟩ := bindOk_eq_ok h
    obtain ⟨e, henc, hgeq⟩ := _apply_put_in_ok hg
    have hdx := Action.decode_of_encode_ok henc
    subst hps'
    subst hgeq
    refine ⟨e, rfl, ?_, ?_, rfl, ?_, rfl, rfl, rfl, rfl, rfl⟩
    · rw [hdx]
      exact (by decide : Act.ALLIN &&& 7 = Act.ALLIN)
    · rw [hdx]
    · rcases hp with hp | hp <;>
      · simp [stack_of, _replace_to_act, swap_player, hp]
        try omega

/-- Successful RAISE transitions satisfy the sizing / auto-shove spec. -/
theorem applyRaise_spec {ps ps' : PublicState}
    (hp : ps.gs.to_act = Player.HERO ∨ ps.gs.to_act = Player.VILLAIN)
    (h0 : ps.raises_this_street = 0)
    (h : applyRaise ps = .ok ps') : raiseSpec ps ps' := by
  rw [applyRaise] at h
  rw [if_neg (by simp [h0])] at h
  rw [raiseSpec]
  cases hsh : _should_shove_after_called ps.gs.pot ps.gs.hero_stack ps.gs.villain_stack
      ps.gs.to_act (min (3 * ps.bet_amount) (stack_of ps.gs ps.gs.to_act))
      (min (max 0 (min (3 * ps.bet_amount) (stack_of ps.gs ps.gs.to_act) - ps.bet_amount))
        (stack_of ps.gs (swap_player ps.gs.to_act))) with
  | false =>
    simp only [hsh, Bool.false_eq_true, if_false] at h ⊢
    obtain ⟨g, hg, hps'⟩ := bindOk_eq_ok h
    obtain ⟨e, henc, hgeq⟩ := _apply_put_in_ok hg
    have hdx := Action.decode_of_encode_ok henc
    subst hps'
    subst hgeq
    refine ⟨e, rfl, ?_, ?_, rfl, ?_, rfl, rfl, rfl, rfl, rfl⟩
    · rw [hdx]
      exact (by decide : Act.RAISE &&& 7 = Act.RAISE)
    · rw [hdx]
    · rcases hp with hp | hp <;>
      · simp [stack_of, _replace_to_act, swap_player, hp]
        try omega
  | true =>
    simp only [hsh, if_true] at h ⊢
    by_cases hle : stack_of ps.gs ps.gs.to_act ≤ ps.bet_amount
    · rw [if_pos hle] at h ⊢
      obtain ⟨g, hg, hps'⟩ := bindOk_eq_ok h
      obtain ⟨e, henc, hgeq⟩ := _apply_put_in_ok hg
      have hdx := Action.decode_of_encode_ok henc
      subst hps'
      subst hgeq
      refine ⟨e, ?_, ?_, ?_, ?_, ?_, ?_⟩
      · rw [(_advance_street_keeps _ _).1]
      · rw [hdx]
        exact (by decide : Act.CALL &&& 7 = Act.CALL)
      · rw [hdx]
      · show (_advance_street _ _).pot = _
        rw [(_advance_street_keeps _ _).2.1]
      · rcases hp with hp | hp <;>
        · simp [stack_of, hp, (_advance_street_keeps _ _).2.2.1,
            (_advance_street_keeps _ _).2.2.2]
          try omega
      · exact closesStreet_of_advance rfl
    · rw [if_neg hle] at h ⊢
      obtain ⟨g, hg, hps'⟩ := bindOk_eq_ok h
      obtain ⟨e, henc, hgeq⟩ := _apply_put_in_ok hg
      have hdx := Action.decode_of_encode_ok henc
      subst hps'
      subst hgeq
      refine ⟨e, rfl, ?_, ?_, rfl, ?_, rfl, rfl, rfl, rfl, rfl⟩
      · rw [hdx]
        exact (by decide : Act.ALLIN &&& 7 = Act.ALLIN)
      · rw [hdx]
      · rcases hp with hp | hp <;>
        · simp [stack_of, _replace_to_act, swap_player, hp]
          try omega


/-- Characterization of legality: membership in `legal_actions` splits on
whether a bet is open. -/
theorem legal_actions_cases {ps : PublicState} {act : Nat}
    (h : act ∈ legal_actions ps) :
    (ps.street_bet_open = false ∧ act ∈ [Act.CHECK, Act.BET, Act.ALLIN]) ∨
    (ps.street_bet_open = true ∧ act ∈ [Act.CALL, Act.FOLD, Act.ALLIN, Act.RAISE]) := by
  rw [legal_actions] at h
  split at h
  · cases h
  · split at h
    · rename_i hopen
      exact Or.inl ⟨hopen, h⟩
    · rename_i hopen
      have hb : ps.street_bet_open = true := by
        cases hb : ps.street_bet_open
        · exact absurd hb hopen
        · rfl
      refine Or.inr ⟨hb, ?_⟩
      split at h
      · exact h
      · simp only [List.mem_cons, List.not_mem_nil, or_false] at h ⊢
        tauto

/-- A legal RAISE implies the raise counter is still zero. -/
theorem legal_raise_zero {ps : PublicState} (h : Act.RAISE ∈ legal_actions ps) :
    ps.raises_this_street = 0 := by
  rw [legal_actions] at h
  split at h
  · cases h
  · split at h
    · exact absurd h (by decide)
    · split at h
      · assumption
      · exact absurd h (by decide)

/-- **C4 (amended).** For every state where BET or RAISE is legal (with a
well-formed actor): the committed BET size is `max(1, pot/2)` and the
RAISE-to size is `3×` the amount owed, each clamped to the actor's stack;
whenever the stack-to-pot ratio after the opponent's call would fall below
`0.5`, the action is upgraded to an ALLIN committing the full stack —
except that a RAISE by a stack not exceeding the amount owed is committed
as an all-in CALL of the whole stack that closes the street instead of
being recorded as an ALLIN. -/
theorem claim_C4 :
    (∀ ps ps' : PublicState,
      ps.gs.to_act = Player.HERO ∨ ps.gs.to_act = Player.VILLAIN →
      apply_action ps Act.BET = .ok ps' → betSpec ps ps') ∧
    (∀ ps ps' : PublicState,
      ps.gs.to_act = Player.HERO ∨ ps.gs.to_act = Player.VILLAIN →
      apply_action ps Act.RAISE = .ok ps' → raiseSpec ps ps') := by
  constructor
  · intro ps ps' hp h
    have hmem := apply_action_ok_mem h
    have hopen : ps.street_bet_open = false := by
      rcases legal_actions_cases hmem with ⟨ho, _⟩ | ⟨_, hin⟩
      · exact ho
      · exact absurd hin (by decide)
    rw [apply_action, if_neg (by simpa using hmem), if_pos hopen,
        if_neg (by decide), if_pos (Or.inl rfl)] at h
    exact applyBetOrAllin_bet_spec hp h
  · intro ps ps' hp h
    have hmem := apply_action_ok_mem h
    have hopen : ps.street_bet_open = true := by
      rcases legal_actions_cases hmem with ⟨_, hin⟩ | ⟨ho, _⟩
      · exact absurd hin (by decide)
      · exact ho
    have hr0 := legal_raise_zero hmem
    rw [apply_action, if_neg (by simpa using hmem),
        if_neg (by rw [hopen]; simp), if_neg (by decide), if_neg (by decide),
        if_neg (by decide), if_pos rfl] at h
    exact applyRaise_spec hp hr0 h

/-- Counterexample to C4 as stated: at `raiseShortState` RAISE is legal and
the claim's auto-shove condition holds, yet the engine records the all-in
as a CALL (not an ALLIN) and closes the street. -/
theorem claim_C4_counterexample :
    Act.RAISE ∈ legal_actions raiseShortState ∧
    _should_shove_after_called raiseShortState.gs.pot raiseShortState.gs.hero_stack
      raiseShortState.gs.villain_stack raiseShortState.gs.to_act
      (min (3 * raiseShortState.bet_amount)
        (stack_of raiseShortState.gs raiseShortState.gs.to_act))
      (min (max 0 (min (3 * raiseShortState.bet_amount)
          (stack_of raiseShortState.gs raiseShortState.gs.to_act) -
            raiseShortState.bet_amount))
        (stack_of raiseShortState.gs (swap_player raiseShortState.gs.to_act))) = true ∧
    apply_action raiseShortState Act.RAISE = .ok raiseShortResult ∧
    raiseShortResult.gs.action_history = [1077936158] ∧
    (Action.decode 1077936158).act = Act.CALL ∧
    Act.CALL ≠ Act.ALLIN ∧
    raiseShortResult.street_bet_open = false ∧
    raiseShortResult.raises_this_street = 0 := by
  refine ⟨by decide, by decide, by decide, by decide, by decide, by decide,
    by decide, by decide⟩

/-- Witness for C4: villain's half-pot BET of 1 chip from `checkState1`. -/
theorem claim_C4_witness :
    ((checkState1.gs.to_act = Player.HERO ∨ checkState1.gs.to_act = Player.VILLAIN) ∧
      apply_action checkState1 Act.BET = .ok betResult) ∧
    betSpec checkState1 betResult :=
  ⟨⟨Or.inr (by decide), by decide⟩,
    claim_C4.1 checkState1 betResult (Or.inr (by decide)) (by decide)⟩

/-! ## C10: ALLIN facing an open bet -/

/-- Successful ALLIN transitions facing a bet satisfy `allinSpec`. -/
theorem applyAllinFacing_spec {ps ps' : PublicState}
    (h : applyAllinFacing ps = .ok ps') : allinSpec ps ps' := by
  rw [applyAllinFacing] at h
  rw [allinSpec]
  by_cases hle : stack_of ps.gs ps.gs.to_act ≤ ps.bet_amount
  · rw [if_pos hle] at h ⊢
    obtain ⟨g, hg, hps'⟩ := bindOk_eq_ok h
    obtain ⟨e, henc, hgeq⟩ := _apply_put_in_ok hg
    have hdx := Action.decode_of_encode_ok henc
    subst hps'
    subst hgeq
    refine ⟨e, ?_, ?_, ?_, ?_, ?_⟩
    · rw [(_advance_street_keeps _ _).1]
    · rw [hdx]
      exact (by decide : Act.CALL &&& 7 = Act.CALL)
    · rw [hdx]
    · show (_advance_street _ _).pot = _
      rw [(_advance_street_keeps _ _).2.1]
    · exact closesStreet_of_advance rfl
  · rw [if_neg hle] at h ⊢
    obtain ⟨g, hg, hps'⟩ := bindOk_eq_ok h
    obtain ⟨e, henc, hgeq⟩ := _apply_put_in_ok hg
    have hdx := Action.decode_of_encode_ok henc
    subst hps'
    subst hgeq
    refine ⟨e, rfl, ?_, ?_, rfl, rfl, rfl, rfl, rfl, rfl⟩
    · rw [hdx]
      exact (by decide : Act.ALLIN &&& 7 = Act.ALLIN)
    · rw [hdx]

/-- **C10 (amended).** For every state facing an open bet: an ALLIN by a
stack at most the amount owed is recorded as a CALL of the whole stack and
closes the street (street advanced below RIVER, showdown/terminal flags at
RIVER) rather than re-opening the betting; only a stack strictly above the
amount owed re-opens the betting as a raise, setting
`raises_this_street = 1` and passing the difference back to the original
bettor. -/
theorem claim_C10 :
    ∀ ps ps' : PublicState, ps.street_bet_open = true →
      apply_action ps Act.ALLIN = .ok ps' → allinSpec ps ps' := by
  intro ps ps' hopen h
  have hmem := apply_action_ok_mem h
  rw [apply_action, if_neg (by simpa using hmem),
      if_neg (by rw [hopen]; simp), if_neg (by decide), if_neg (by decide),
      if_pos rfl] at h
  exact applyAllinFacing_spec h

/-- Counterexample to C10 as stated: a short-stack ALLIN facing a river
bet is recorded as a CALL and closes the betting, but the street is not
advanced — the showdown/terminal flags are set instead. -/
theorem claim_C10_counterexample :
    allinRiverState.street_bet_open = true ∧
    stack_of allinRiverState.gs allinRiverState.gs.to_act ≤ allinRiverState.bet_amount ∧
    apply_action allinRiverState Act.ALLIN = .ok allinRiverResult ∧
    (Action.decode 3225419806).act = Act.CALL ∧
    allinRiverResult.street_bet_open = false ∧
    allinRiverResult.gs.street = allinRiverState.gs.street ∧
    ¬ allinRiverResult.gs.street = allinRiverState.gs.street + 1 ∧
    is_terminal allinRiverResult = true ∧ showdown_flag allinRiverResult = true := by
  refine ⟨by decide, by decide, by decide, by decide, by decide, by decide,
    by decide, by decide, by decide⟩

/-- Witness for C10: the big-stack ALLIN over a 10-chip bet re-opens the
betting with 70 left to call. -/
theorem claim_C10_witness :
    (allinBigState.street_bet_open = true ∧
      apply_action allinBigState Act.ALLIN = .ok allinBigResult) ∧
    allinSpec allinBigState allinBigResult :=
  ⟨⟨by decide, by decide⟩,
    claim_C10 allinBigState allinBigResult (by decide) (by decide)⟩


/-! ## C5: chip conservation and the zero-sum question -/

/-- `swap_player` always yields a well-formed player. -/
theorem swap_player_mem (x : Nat) :
    swap_player x = Player.HERO ∨ swap_player x = Player.VILLAIN := by
  unfold swap_player
  split
  · exact Or.inr rfl
  · exact Or.inl rfl

/-- `_advance_street` preserves the recorded starting stacks. -/
theorem _advance_street_start (g : GameState) (n : Nat) :
    ((_advance_street g n).meta.getD {}).hero_start = (g.meta.getD {}).hero_start ∧
    ((_advance_street g n).meta.getD {}).villain_start = (g.meta.getD {}).villain_start := by
  unfold _advance_street
  split
  · cases g.meta <;> exact ⟨rfl, rfl⟩
  · exact ⟨rfl, rfl⟩

/-- `_with_terminal` preserves the recorded starting stacks. -/
theorem _with_terminal_start (g : GameState) (w : Nat) :
    ((_with_terminal g w).meta.getD {}).hero_start = (g.meta.getD {}).hero_start ∧
    ((_with_terminal g w).meta.getD {}).villain_start = (g.meta.getD {}).villain_start := by
  unfold _with_terminal
  cases g.meta <;> exact ⟨rfl, rfl⟩

/-- A put-in by a well-formed actor conserves the chip sum. -/
theorem putin_chipSum {gs : GameState} {p : Nat} {amt : Int} {a : Nat} {g : GameState}
    (hp : p = Player.HERO ∨ p = Player.VILLAIN)
    (h : _apply_put_in gs p amt a = .ok g) : chipSum g = chipSum gs := by
  obtain ⟨e, _, hgeq⟩ := _apply_put_in_ok h
  subst hgeq
  rcases hp with hp | hp <;>
  · simp [chipSum, hp, Player.HERO, Player.VILLAIN]
    try omega

/-- A put-in leaves the meta side-channel untouched. -/
theorem putin_meta {gs : GameState} {p : Nat} {amt : Int} {a : Nat} {g : GameState}
    (h : _apply_put_in gs p amt a = .ok g) : g.meta = gs.meta := by
  obtain ⟨e, _, hgeq⟩ := _apply_put_in_ok h
  subst hgeq
  rfl

/-- One legal transition conserves the chip sum, keeps the actor
well-formed, and preserves the recorded starting stacks. -/
theorem apply_action_invariants {ps : PublicState} {a : Nat} {ps' : PublicState}
    (hp : ps.gs.to_act = Player.HERO ∨ ps.gs.to_act = Player.VILLAIN)
    (h : apply_action ps a = .ok ps') :
    chipSum ps'.gs = chipSum ps.gs ∧
    (ps'.gs.to_act = Player.HERO ∨ ps'.gs.to_act = Player.VILLAIN) ∧
    (ps'.gs.meta.getD {}).hero_start = (ps.gs.meta.getD {}).hero_start ∧
    (ps'.gs.meta.getD {}).villain_start = (ps.gs.meta.getD {}).villain_start := by
  rw [apply_action] at h
  split at h
  · cases h
  split at h
  · -- no bet open this street
    split at h
    · -- CHECK
      rw [applyCheck] at h
      obtain ⟨g, hg, hps'⟩ := bindOk_eq_ok h
      obtain ⟨e, _, hgeq⟩ := GameState.apply_action_ok hg
      subst hps'
      split
      · refine ⟨?_, Or.inl ((_advance_street_fields g Player.HERO).1), ?_, ?_⟩
        · show chipSum (_advance_street g Player.HERO) = chipSum ps.gs
          obtain ⟨_, hpot, hhs, hvs⟩ := _advance_street_keeps g Player.HERO
          rw [chipSum, hpot, hhs, hvs, hgeq, chipSum]
          simp
        · rw [(_advance_street_start g Player.HERO).1, hgeq]
        · rw [(_advance_street_start g Player.HERO).2, hgeq]
      · subst hgeq
        exact ⟨by simp [chipSum, _replace_to_act], swap_player_mem _, rfl, rfl⟩
    · split at h
      · -- BET / ALLIN
        rw [applyBetOrAllin] at h
        obtain ⟨g, hg, hps'⟩ := bindOk_eq_ok h
        subst hps'
        exact ⟨by show chipSum (_replace_to_act g _) = _
                  rw [show chipSum (_replace_to_act g (swap_player ps.gs.to_act)) = chipSum g from rfl,
                      putin_chipSum hp hg],
               swap_player_mem _,
               by show ((_replace_to_act g _).meta.getD {}).hero_start = _
                  rw [show (_replace_to_act g (swap_player ps.gs.to_act)).meta = g.meta from rfl,
                      putin_meta hg],
               by show ((_replace_to_act g _).meta.getD {}).villain_start = _
                  rw [show (_replace_to_act g (swap_player ps.gs.to_act)).meta = g.meta from rfl,
                      putin_meta hg]⟩
      · cases h
  · split at h
    · -- FOLD
      rw [applyFold] at h
      obtain ⟨g, hg, hps'⟩ := bindOk_eq_ok h
      obtain ⟨e, _, hgeq⟩ := GameState.apply_action_ok hg
      subst hps'
      subst hgeq
      refine ⟨by simp [chipSum, _with_terminal], hp, ?_, ?_⟩
      · rw [(_with_terminal_start _ _).1]
      · rw [(_with_terminal_start _ _).2]
    · split at h
      · -- CALL
        rw [applyCall] at h
        obtain ⟨g, hg, hps'⟩ := bindOk_eq_ok h
        subst hps'
        refine ⟨?_, Or.inl ((_advance_street_fields g Player.HERO).1), ?_, ?_⟩
        · show chipSum (_advance_street g Player.HERO) = chipSum ps.gs
          obtain ⟨_, hpot, hhs, hvs⟩ := _advance_street_keeps g Player.HERO
          rw [chipSum, hpot, hhs, hvs, ← chipSum, putin_chipSum hp hg]
        · rw [(_advance_street_start g Player.HERO).1, putin_meta hg]
        · rw [(_advance_street_start g Player.HERO).2, putin_meta hg]
      · split at h
        · -- ALLIN facing a bet
          rw [applyAllinFacing] at h
          split at h
          · obtain ⟨g, hg, hps'⟩ := bindOk_eq_ok h
            subst hps'
            refine ⟨?_, Or.inl ((_advance_street_fields g Player.HERO).1), ?_, ?_⟩
            · show chipSum (_advance_street g Player.HERO) = chipSum ps.gs
              obtain ⟨_, hpot, hhs, hvs⟩ := _advance_street_keeps g Player.HERO
              rw [chipSum, hpot, hhs, hvs, ← chipSum, putin_chipSum hp hg]
            · rw [(_advance_street_start g Player.HERO).1, putin_meta hg]
            · rw [(_advance_street_start g Player.HERO).2, putin_meta hg]
          · obtain ⟨g, hg, hps'⟩ := bindOk_eq_ok h
            subst hps'
            exact ⟨by show chipSum (_replace_to_act g _) = _
                      rw [show chipSum (_replace_to_act g (swap_player ps.gs.to_act)) = chipSum g from rfl,
                          putin_chipSum hp hg],
                   swap_player_mem _,
                   by show ((_replace_to_act g _).meta.getD {}).hero_start = _
                      rw [show (_replace_to_act g (swap_player ps.gs.to_act)).meta = g.meta from rfl,
                          putin_meta hg],
                   by show ((_replace_to_act g _).meta.getD {}).villain_start = _
                      rw [show (_replace_to_act g (swap_player ps.gs.to_act)).meta = g.meta from rfl,
                          putin_meta hg]⟩
        · split at h
          · -- RAISE
            rw [applyRaise] at h
            simp only [] at h
            split at h
            · cases h
            · split at h
              · split at h
                · obtain ⟨g, hg, hps'⟩ := bindOk_eq_ok h
                  subst hps'
                  refine ⟨?_, Or.inl ((_advance_street_fields g Player.HERO).1), ?_, ?_⟩
                  · show chipSum (_advance_street g Player.HERO) = chipSum ps.gs
                    obtain ⟨_, hpot, hhs, hvs⟩ := _advance_street_keeps g Player.HERO
                    rw [chipSum, hpot, hhs, hvs, ← chipSum, putin_chipSum hp hg]
                  · rw [(_advance_street_start g Player.HERO).1, putin_meta hg]
                  · rw [(_advance_street_start g Player.HERO).2, putin_meta hg]
                · obtain ⟨g, hg, hps'⟩ := bindOk_eq_ok h
                  subst hps'
                  exact ⟨by show chipSum (_replace_to_act g _) = _
                            rw [show chipSum (_replace_to_act g (swap_player ps.gs.to_act)) = chipSum g from rfl,
                                putin_chipSum hp hg],
                         swap_player_mem _,
                         by show ((_replace_to_act g _).meta.getD {}).hero_start = _
                            rw [show (_replace_to_act g (swap_player ps.gs.to_act)).meta = g.meta from rfl,
                                putin_meta hg],
                         by show ((_replace_to_act g _).meta.getD {}).villain_start = _
                            rw [show (_replace_to_act g (swap_player ps.gs.to_act)).meta = g.meta from rfl,
                                putin_meta hg]⟩
              · obtain ⟨g, hg, hps'⟩ := bindOk_eq_ok h
                subst hps'
                exact ⟨by show chipSum (_replace_to_act g _) = _
                          rw [show chipSum (_replace_to_act g (swap_player ps.gs.to_act)) = chipSum g from rfl,
                              putin_chipSum hp hg],
                       swap_player_mem _,
                       by show ((_replace_to_act g _).meta.getD {}).hero_start = _
                          rw [show (_replace_to_act g (swap_player ps.gs.to_act)).meta = g.meta from rfl,
                              putin_meta hg],
                       by show ((_replace_to_act g _).meta.getD {}).villain_start = _
                          rw [show (_replace_to_act g (swap_player ps.gs.to_act)).meta = g.meta from rfl,
                              putin_meta hg]⟩
          · cases h

/-- `play` preserves the one-step invariants along any successful run. -/
theorem play_invariants {acts : List Nat} {ps psf : PublicState}
    (hp : ps.gs.to_act = Player.HERO ∨ ps.gs.to_act = Player.VILLAIN)
    (h : play ps acts = .ok psf) :
    chipSum psf.gs = chipSum ps.gs ∧
    (psf.gs.meta.getD {}).hero_start = (ps.gs.meta.getD {}).hero_start ∧
    (psf.gs.meta.getD {}).villain_start = (ps.gs.meta.getD {}).villain_start := by
  induction acts generalizing ps with
  | nil =>
    rw [play] at h
    cases h
    exact ⟨rfl, rfl, rfl⟩
  | cons a rest ih =>
    rw [play] at h
    split at h
    · cases h
    · rename_i ps2 hstep
      obtain ⟨hc, hwf, hh, hv⟩ := apply_action_invariants hp hstep
      obtain ⟨hc2, hh2, hv2⟩ := ih hwf h
      exact ⟨hc2.trans hc, hh2.trans hh, hv2.trans hv⟩


/-- **C5.** For every hand played from `start_postflop_state` through
legal transitions: `pot + hero_stack + villain_stack` is conserved (it
stays `2 × stacks_bb`), and at any terminal outcome the payout
distributes exactly the pot — the winner takes it all, a tie gives hero
the truncated half and villain the remainder — so
`hero_net + villain_net = 0`. -/
theorem claim_C5 :
    ∀ (flop : List Int) (pot stacks_bb : Int) (t : Nat) (acts : List Nat)
      (ps0 psf : PublicState) (w : Option Bool),
      (t = Player.HERO ∨ t = Player.VILLAIN) →
      start_postflop_state flop pot stacks_bb t = .ok ps0 →
      play ps0 acts = .ok psf →
      chipSum psf.gs = 2 * stacks_bb ∧
      _hero_chip_ev_terminal psf.gs w + villain_chip_ev_terminal psf.gs w = 0 := by
  intro flop pot stacks_bb t acts ps0 psf w ht h0 hplay
  rw [start_postflop_state] at h0
  split at h0
  · cases h0
  · cases h0
    obtain ⟨hchip, hhs, hvs⟩ := play_invariants ht hplay
    have hsum : chipSum psf.gs = 2 * stacks_bb := by
      rw [hchip]
      show pot + (stacks_bb - Int.fdiv pot 2) + (stacks_bb - (pot - Int.fdiv pot 2))
        = 2 * stacks_bb
      ring
    refine ⟨hsum, ?_⟩
    have hhs' : (psf.gs.meta.getD {}).hero_start = stacks_bb := by
      rw [hhs]
      rfl
    have hvs' : (psf.gs.meta.getD {}).villain_start = stacks_bb := by
      rw [hvs]
      rfl
    rw [chipSum] at hsum
    cases w with
    | none =>
      show psf.gs.hero_stack + Int.fdiv psf.gs.pot 2 - (psf.gs.meta.getD {}).hero_start +
          (psf.gs.villain_stack + (psf.gs.pot - Int.fdiv psf.gs.pot 2) -
            (psf.gs.meta.getD {}).villain_start) = 0
      rw [hhs', hvs']
      omega
    | some b =>
      cases b with
      | true =>
        show psf.gs.hero_stack + psf.gs.pot - (psf.gs.meta.getD {}).hero_start +
            (psf.gs.villain_stack - (psf.gs.meta.getD {}).villain_start) = 0
        rw [hhs', hvs']
        omega
      | false =>
        show psf.gs.hero_stack - (psf.gs.meta.getD {}).hero_start +
            (psf.gs.villain_stack + psf.gs.pot - (psf.gs.meta.getD {}).villain_start) = 0
        rw [hhs', hvs']
        omega

/-- Witness for C5 on the concrete checked-down hand, exercising the
odd-pot tie: hero nets `0` (half of the 3-chip pot, truncated), villain
nets `0` (the remaining 2 chips against the 2 invested), summing to
`0`. -/
theorem claim_C5_witness :
    ((Player.HERO = Player.HERO ∨ Player.HERO = Player.VILLAIN) ∧
      start_postflop_state [45, 22, 1] 3 100 Player.HERO = .ok startState ∧
      play startState [Act.CHECK, Act.CHECK, Act.CHECK, Act.CHECK, Act.CHECK, Act.CHECK]
        = .ok tieState) ∧
    (chipSum tieState.gs = 2 * 100 ∧
      _hero_chip_ev_terminal tieState.gs none +
        villain_chip_ev_terminal tieState.gs none = 0) :=
  ⟨⟨Or.inl rfl, by decide, by decide⟩,
    claim_C5 [45, 22, 1] 3 100 Player.HERO
      [Act.CHECK, Act.CHECK, Act.CHECK, Act.CHECK, Act.CHECK, Act.CHECK]
      startState tieState none (Or.inl rfl) (by decide) (by decide)⟩


/-! ## C8: rollout cache behaviour -/

theorem odLookup_append_of_none {K : Type} [DecidableEq K]
    {l : List (K × RolloutStats)} {k : K} (h : odLookup l k = none)
    (m : List (K × RolloutStats)) : odLookup (l ++ m) k = odLookup m k := by
  induction l with
  | nil => rfl
  | cons x rest ih =>
    rw [odLookup] at h
    split at h
    · cases h
    · rw [List.cons_append, odLookup, if_neg (by assumption)]
      exact ih h

theorem odLookup_erase_self {K : Type} [DecidableEq K]
    (l : List (K × RolloutStats)) (k : K) : odLookup (odErase l k) k = none := by
  induction l with
  | nil => rfl
  | cons x rest ih =>
    rw [odErase] at ih ⊢
    rw [List.filter_cons]
    by_cases hx : x.1 = k
    · rw [if_neg (by simp [hx])]
      exact ih
    · rw [if_pos (by simp [hx]), odLookup, if_neg hx]
      exact ih

theorem odErase_length_lt {K : Type} [DecidableEq K]
    {l : List (K × RolloutStats)} {k : K} {v : RolloutStats}
    (h : odLookup l k = some v) : (odErase l k).length < l.length := by
  induction l with
  | nil => cases h
  | cons x rest ih =>
    rw [odLookup] at h
    rw [odErase, List.filter_cons]
    split at h
    · rename_i hx
      rw [if_neg (by simp [hx])]
      have hlen := List.length_filter_le (fun kv => !decide (kv.1 = k)) rest
      simp only [List.length_cons]
      omega
    · rename_i hx
      rw [if_pos (by simp [hx])]
      have hlt := ih h
      rw [odErase] at hlt
      simp only [List.length_cons]
      omega

theorem evict_length_le (cap : Nat) {K : Type} (l : List (K × RolloutStats)) :
    (_evict_if_needed cap l).length ≤ cap := by
  induction l with
  | nil =>
    rw [_evict_if_needed]
    simp
  | cons x rest ih =>
    rw [_evict_if_needed]
    split
    · exact ih
    · omega

theorem evict_of_le {cap : Nat} {K : Type} {l : List (K × RolloutStats)}
    (h : l.length ≤ cap) : _evict_if_needed cap l = l := by
  cases l with
  | nil => rfl
  | cons x rest =>
    rw [_evict_if_needed, if_neg (by omega)]

theorem evict_tail {cap : Nat} {K : Type} {l : List (K × RolloutStats)}
    (h : l.length = cap + 1) : _evict_if_needed cap l = l.tail := by
  cases l with
  | nil => simp at h
  | cons x rest =>
    rw [_evict_if_needed, if_pos (by omega)]
    rw [evict_of_le (by simp at h; omega)]
    rfl

theorem odLookup_evict_append {K : Type} [DecidableEq K]
    {cap : Nat} (hcap : 1 ≤ cap) {l : List (K × RolloutStats)} {k : K}
    (h : odLookup l k = none) (v : RolloutStats) :
    odLookup (_evict_if_needed cap (l ++ [(k, v)])) k = some v := by
  induction l with
  | nil =>
    rw [List.nil_append, _evict_if_needed, if_neg (by simp; omega), odLookup, if_pos rfl]
  | cons x rest ih =>
    rw [odLookup] at h
    split at h
    · cases h
    · rw [List.cons_append, _evict_if_needed]
      split
      · exact ih h
      · rw [odLookup, if_neg (by assumption),
            odLookup_append_of_none h [(k, v)], odLookup, if_pos rfl]

theorem odLookup_odSet {K : Type} [DecidableEq K]
    {l : List (K × RolloutStats)} {k : K} {v : RolloutStats}
    (h : odLookup l k = some v) (v' : RolloutStats) :
    odLookup (odSet l k v') k = some v' := by
  induction l with
  | nil => cases h
  | cons x rest ih =>
    rw [odLookup] at h
    rw [odSet, List.map]
    split at h
    · rename_i hx
      rw [if_pos hx, odLookup, if_pos rfl]
    · rename_i hx
      rw [if_neg hx, odLookup, if_neg hx]
      exact ih h

theorem odSet_length {K : Type} [DecidableEq K]
    (l : List (K × RolloutStats)) (k : K) (v : RolloutStats) :
    (odSet l k v).length = l.length := by
  rw [odSet, List.length_map]

/-- One `update` on a key already present: the stored stats are folded,
and the table size is unchanged. -/
theorem update_present {K : Type} [DecidableEq K]
    {t : LRUTranspoTable K} {k : K} {st : RolloutStats}
    (h : odLookup t.od k = some st) (ev : ℚ) :
    odLookup ((t.update k ev).2).od k = some (st.update ev) ∧
    ((t.update k ev).2).od.length ≤ t.od.length := by
  have hmid : odLookup (odErase t.od k ++ [(k, st)]) k = some st := by
    rw [odLookup_append_of_none (odLookup_erase_self t.od k) [(k, st)],
        odLookup, if_pos rfl]
  rw [LRUTranspoTable.update, LRUTranspoTable.get_or_create, LRUTranspoTable.get]
  rw [h]
  simp only []
  constructor
  · exact odLookup_odSet hmid (st.update ev)
  · rw [odSet_length, List.length_append]
    have := odErase_length_lt h
    simp only [List.length_cons, List.length_nil]
    omega


/-- Updates for a key already present fold into `statsRun` and never grow
the table. -/
theorem run_present {K : Type} [DecidableEq K] :
    ∀ (vs : List ℚ) (t : LRUTranspoTable K) (k : K) (st : RolloutStats),
      odLookup t.od k = some st →
      odLookup (runUpdates t k vs).od k = some (statsRun st vs) ∧
      (runUpdates t k vs).od.length ≤ t.od.length := by
  intro vs
  induction vs with
  | nil =>
    intro t k st h
    exact ⟨h, le_rfl⟩
  | cons v vs ih =>
    intro t k st h
    obtain ⟨h1, hlen1⟩ := update_present h v
    obtain ⟨h2, hlen2⟩ := ih (t.update k v).2 k (st.update v) h1
    exact ⟨h2, hlen2.trans hlen1⟩

/-- Closed form of the incremental running mean over the rationals. -/
theorem statsRun_mean :
    ∀ (vs : List ℚ) (j : Nat) (m : ℚ), 1 ≤ j →
      statsRun { n := j, mean_ev := m } vs =
        { n := j + vs.length,
          mean_ev := (m * (j : ℚ) + vs.sum) / ((j : ℚ) + (vs.length : ℚ)) } := by
  intro vs
  induction vs with
  | nil =>
    intro j m hj
    have hj0 : (j : ℚ) ≠ 0 := Nat.cast_ne_zero.mpr (by omega)
    rw [statsRun]
    simp only [RolloutStats.mk.injEq, List.length_nil, List.sum_nil]
    constructor
    · omega
    · field_simp
  | cons v vs ih =>
    intro j m hj
    rw [statsRun, RolloutStats.update]
    simp only []
    rw [ih (j + 1) _ (by omega)]
    have hj1 : ((j : ℚ) + 1) ≠ 0 := by positivity
    have hjL : ((j : ℚ) + 1 + (vs.length : ℚ)) ≠ 0 := by positivity
    simp only [RolloutStats.mk.injEq, List.length_cons, List.sum_cons]
    constructor
    · omega
    · push_cast
      field_simp
      ring

/-- The very first update creates `{n := 1, mean := v}`. -/
theorem update_fresh_stats (v : ℚ) :
    ({} : RolloutStats).update v = { n := 1, mean_ev := v } := by
  rw [RolloutStats.update]
  simp

/-- A fresh key updated with `v :: vs` stores exactly their arithmetic
mean. -/
theorem runUpdates_fresh {K : Type} [DecidableEq K]
    {t : LRUTranspoTable K} {k : K} (hcap : 1 ≤ t.capacity)
    (habs : odLookup t.od k = none) (v : ℚ) (vs : List ℚ) :
    odLookup (runUpdates t k (v :: vs)).od k =
      some { n := (v :: vs).length,
             mean_ev := (v :: vs).sum / ((v :: vs).length : ℚ) } := by
  rw [runUpdates]
  have h1 : odLookup ((t.update k v).2).od k = some { n := 1, mean_ev := v } := by
    rw [LRUTranspoTable.update, LRUTranspoTable.get_or_create, LRUTranspoTable.get, habs]
    simp only []
    rw [update_fresh_stats]
    exact odLookup_odSet (odLookup_evict_append hcap habs _) _
  obtain ⟨hl, _⟩ := run_present vs _ k _ h1
  rw [hl, statsRun_mean vs 1 v (le_refl 1)]
  simp only [Option.some.injEq, RolloutStats.mk.injEq, List.length_cons, List.sum_cons]
  constructor
  · omega
  · push_cast
    ring_nf

/-- All three cache operations keep the table within capacity. -/
theorem cache_sizes {K : Type} [DecidableEq K]
    (t : LRUTranspoTable K) (k : K) (ev : ℚ) (hle : t.od.length ≤ t.capacity) :
    ((t.get k).2).od.length ≤ t.capacity ∧
    ((t.get_or_create k).2).od.length ≤ t.capacity ∧
    ((t.update k ev).2).od.length ≤ t.capacity := by
  have hget : ((t.get k).2).od.length ≤ t.capacity := by
    rw [LRUTranspoTable.get]
    cases hlk : odLookup t.od k with
    | none => simpa using hle
    | some st =>
      simp only []
      rw [List.length_append]
      have := odErase_length_lt hlk
      simp only [List.length_cons, List.length_nil]
      omega
  have hgoc : ((t.get_or_create k).2).od.length ≤ t.capacity := by
    rw [LRUTranspoTable.get_or_create, LRUTranspoTable.get]
    cases hlk : odLookup t.od k with
    | none =>
      simp only []
      exact evict_length_le _ _
    | some st =>
      simp only []
      rw [List.length_append]
      have := odErase_length_lt hlk
      simp only [List.length_cons, List.length_nil]
      omega
  refine ⟨hget, hgoc, ?_⟩
  rw [LRUTranspoTable.update]
  simp only []
  rw [odSet_length]
  exact hgoc

/-- Inserting a fresh key at capacity evicts exactly the head — the least
recently used binding. -/
theorem cache_evicts_lru {K : Type} [DecidableEq K]
    (t : LRUTranspoTable K) (k : K) (hcap : 1 ≤ t.capacity)
    (hfull : t.od.length = t.capacity) (habs : odLookup t.od k = none) :
    ((t.get_or_create k).2).od = t.od.tail ++ [(k, { n := 0, mean_ev := 0 })] := by
  rw [LRUTranspoTable.get_or_create, LRUTranspoTable.get, habs]
  simp only []
  rw [evict_tail (by simp [hfull])]
  cases hod : t.od with
  | nil =>
    rw [hod] at hfull
    simp at hfull
    omega
  | cons x rest => rfl

/-- **C8.** A key updated with `v1..vn` stores exactly their arithmetic
mean (exact over the rationals); no operation pushes the table above its
capacity; and creating a key at capacity evicts exactly the
least-recently-accessed binding, the head of the recency order. -/
theorem claim_C8 :
    (∀ (K : Type) (_ : DecidableEq K) (t : LRUTranspoTable K) (k : K)
        (v : ℚ) (vs : List ℚ),
      1 ≤ t.capacity → odLookup t.od k = none →
      odLookup (runUpdates t k (v :: vs)).od k =
        some { n := (v :: vs).length,
               mean_ev := (v :: vs).sum / ((v :: vs).length : ℚ) }) ∧
    (∀ (K : Type) (_ : DecidableEq K) (t : LRUTranspoTable K) (k : K) (ev : ℚ),
      t.od.length ≤ t.capacity →
      ((t.get k).2).od.length ≤ t.capacity ∧
      ((t.get_or_create k).2).od.length ≤ t.capacity ∧
      ((t.update k ev).2).od.length ≤ t.capacity) ∧
    (∀ (K : Type) (_ : DecidableEq K) (t : LRUTranspoTable K) (k : K),
      1 ≤ t.capacity → t.od.length = t.capacity → odLookup t.od k = none →
      ((t.get_or_create k).2).od = t.od.tail ++ [(k, { n := 0, mean_ev := 0 })]) :=
  ⟨fun _ _ _ _ v vs hcap habs => runUpdates_fresh hcap habs v vs,
   fun _ _ t k ev hle => cache_sizes t k ev hle,
   fun _ _ t k hcap hfull habs => cache_evicts_lru t k hcap hfull habs⟩

/-- Witness for C8: a capacity-2 table sees updates 3 and 5 for key 7 and
stores their mean 4. -/
theorem claim_C8_witness :
    ((1 : Nat) ≤ (2 : Nat) ∧
      odLookup (K := Nat) [] 7 = none) ∧
    odLookup (runUpdates ⟨2, [], 0, 0, 0⟩ 7 [3, 5]).od 7 =
      some { n := 2, mean_ev := 4 } := by
  have h := claim_C8.1 Nat inferInstance ⟨2, [], 0, 0, 0⟩ 7 3 [5]
    (by decide) (by decide)
  refine ⟨⟨by decide, by decide⟩, ?_⟩
  rw [h]
  norm_num


/-! ## C6: first-play urgency and the UCB argmax -/

/-- If some action in the list is unvisited, `firstUnvisited` returns an
unvisited member of the list. -/
theorem firstUnvisited_spec {node : InfoNode} {acts : List Nat} {a : Nat}
    (ha : a ∈ acts) (h0 : node.na a = 0) :
    ∃ b ∈ acts, firstUnvisited node acts = some b ∧ node.na b = 0 := by
  rw [firstUnvisited]
  cases hf : acts.find? (fun x => node.na x == 0) with
  | none =>
    rw [List.find?_eq_none] at hf
    exact absurd (by simpa using h0) (hf a ha)
  | some b =>
    refine ⟨b, List.mem_of_find?_eq_some hf, rfl, ?_⟩
    simpa using List.find?_some hf

/-- The first-best scan of the UCB loop: the final best score dominates
the initial score and every scanned score, and is attained by a list
element unless the accumulator never changed. -/
theorem foldl_best (score : Nat → ℝ) :
    ∀ (acts : List Nat) (o : Option Nat) (s : ℝ),
      s ≤ (acts.foldl
        (fun st a => if score a > st.2 then (some a, score a) else st) (o, s)).2 ∧
      (∀ a ∈ acts, score a ≤ (acts.foldl
        (fun st a => if score a > st.2 then (some a, score a) else st) (o, s)).2) ∧
      ((acts.foldl
          (fun st a => if score a > st.2 then (some a, score a) else st) (o, s))
            = (o, s) ∨
        ∃ b ∈ acts,
          (acts.foldl
            (fun st a => if score a > st.2 then (some a, score a) else st) (o, s)).1
              = some b ∧
          (acts.foldl
            (fun st a => if score a > st.2 then (some a, score a) else st) (o, s)).2
              = score b) := by
  intro acts
  induction acts with
  | nil =>
    intro o s
    exact ⟨le_rfl, by simp, Or.inl rfl⟩
  | cons x rest ih =>
    intro o s
    simp only [List.foldl_cons]
    by_cases hx : score x > s
    · rw [if_pos hx]
      obtain ⟨h1, h2, h3⟩ := ih (some x) (score x)
      refine ⟨le_of_lt (lt_of_lt_of_le hx h1), ?_, ?_⟩
      · intro a ha
        rcases List.mem_cons.mp ha with rfl | ha
        · exact h1
        · exact h2 a ha
      · rcases h3 with h3 | ⟨b, hb, hb1, hb2⟩
        · exact Or.inr ⟨x, List.mem_cons_self x rest, by rw [h3], by rw [h3]⟩
        · exact Or.inr ⟨b, List.mem_cons_of_mem x hb, hb1, hb2⟩
    · rw [if_neg hx]
      obtain ⟨h1, h2, h3⟩ := ih o s
      refine ⟨h1, ?_, ?_⟩
      · intro a ha
        rcases List.mem_cons.mp ha with rfl | ha
        · exact le_trans (le_of_not_lt hx) h1
        · exact h2 a ha
      · rcases h3 with h3 | ⟨b, hb, hb1, hb2⟩
        · exact Or.inl h3
        · exact Or.inr ⟨b, List.mem_cons_of_mem x hb, hb1, hb2⟩

/-- While an unvisited action remains, the selection returns an
unvisited member of the list (first-play urgency). -/
theorem ucb_select_unvisited {node : InfoNode} {acts : List Nat} {c : ℝ} {a : Nat}
    (ha : a ∈ acts) (h0 : node.na a = 0) :
    ∃ b ∈ acts, ucb_select_action node acts c = some b ∧ node.na b = 0 := by
  obtain ⟨b, hb, hfind, hb0⟩ := firstUnvisited_spec ha h0
  exact ⟨b, hb, by simp only [ucb_select_action, hfind], hb0⟩

/-- Once every action has a positive visit count, and some score clears
the `-1e100` floor, the selection returns an argmax of the UCB score. -/
theorem ucb_select_argmax {node : InfoNode} {acts : List Nat} {c : ℝ}
    (hvis : ∀ a ∈ acts, node.na a ≠ 0)
    (hfloor : ∃ a ∈ acts, -(10 : ℝ) ^ 100 < ucbScore node c a) :
    ∃ b ∈ acts, ucb_select_action node acts c = some b ∧
      ∀ a ∈ acts, ucbScore node c a ≤ ucbScore node c b := by
  have hnone : firstUnvisited node acts = none := by
    rw [firstUnvisited, List.find?_eq_none]
    intro x hx
    simpa using hvis x hx
  simp only [ucb_select_action, hnone]
  obtain ⟨h1, h2, h3⟩ := foldl_best (ucbScore node c) acts none (-(10 : ℝ) ^ 100)
  rcases h3 with h3 | ⟨b, hb, hb1, hb2⟩
  · obtain ⟨a, ha, hagt⟩ := hfloor
    have hle := h2 a ha
    rw [h3] at hle
    exact absurd hle (not_le.mpr hagt)
  · exact ⟨b, hb, hb1, fun a ha => by rw [← hb2]; exact h2 a ha⟩

/-- With all listed actions distinct, the visited ones carrying positive
counts and the rest fresh, the next `|rest|` selections are exactly
`rest` in order. -/
theorem runSelections_fresh :
    ∀ (rest done : List Nat) (node : InfoNode) (c : ℝ) (vals : Nat → ℝ),
      (done ++ rest).Nodup →
      (∀ a ∈ done, node.na a ≠ 0) →
      (∀ a ∈ rest, node.na a = 0) →
      runSelections c vals (done ++ rest) rest.length node = rest := by
  intro rest
  induction rest with
  | nil =>
    intro done node c vals _ _ _
    simp [runSelections]
  | cons r rs ih =>
    intro done node c vals hnodup hdone hrest
    have hsel : ucb_select_action node (done ++ r :: rs) c = some r := by
      have hfind : firstUnvisited node (done ++ r :: rs) = some r := by
        rw [firstUnvisited, List.find?_append]
        have hd : (done.find? fun a => node.na a == 0) = none := by
          rw [List.find?_eq_none]
          intro x hx
          simpa using hdone x hx
        rw [hd, List.find?_cons_of_pos _
          (by simpa using hrest r (List.mem_cons_self r rs))]
        rfl
      simp only [ucb_select_action, hfind]
    rw [List.length_cons]
    rw [runSelections]
    simp only [hsel]
    have hrdone : r ∉ done := by
      have hdisj := List.disjoint_of_nodup_append hnodup
      intro hmem
      exact hdisj hmem (List.mem_cons_self r rs)
    have hrrs : r ∉ rs := by
      have hn2 := List.Nodup.of_append_right hnodup
      exact (List.nodup_cons.mp hn2).1
    have hswap : done ++ r :: rs = (done ++ [r]) ++ rs := by simp
    rw [hswap]
    congr 1
    have hih := ih (done ++ [r]) (node.recordVisit r (vals 0)) c (fun i => vals (i + 1))
      (by rw [← hswap]; exact hnodup)
      (by
        intro a hamem
        rcases List.mem_append.mp hamem with hain | hsing
        · have hane : a ≠ r := fun hEq => hrdone (hEq ▸ hain)
          simp only [InfoNode.recordVisit, if_neg hane]
          exact hdone a hain
        · have haeq : a = r := by simpa using hsing
          subst haeq
          simp only [InfoNode.recordVisit, if_pos rfl]
          exact Nat.succ_ne_zero _)
      (by
        intro a hamem
        have hane : a ≠ r := fun hEq => hrrs (hEq ▸ hamem)
        simp only [InfoNode.recordVisit, if_neg hane]
        exact hrest a (List.mem_cons_of_mem r hamem))
    exact hih

/-- Claim C6: first-play urgency selects an unvisited action while one
exists; starting from a fresh node over `k` distinct legal actions the
first `k` selections (statistics updated after each by
`ISMCTS._iterate`) are exactly those `k` actions, each once; and once
every action is visited, `ucb_select_action` returns the argmax of
`wa[a]/na[a] + c*sqrt(log(n+1)/na[a])` over the listed actions. -/
theorem claim_C6 :
    (∀ (node : InfoNode) (acts : List Nat) (c : ℝ) (a : Nat),
        a ∈ acts → node.na a = 0 →
        ∃ b ∈ acts, ucb_select_action node acts c = some b ∧ node.na b = 0) ∧
    (∀ (acts : List Nat) (node : InfoNode) (c : ℝ) (vals : Nat → ℝ),
        acts.Nodup → (∀ a ∈ acts, node.na a = 0) →
        runSelections c vals acts acts.length node = acts) ∧
    (∀ (node : InfoNode) (acts : List Nat) (c : ℝ),
        (∀ a ∈ acts, node.na a ≠ 0) →
        (∃ a ∈ acts, -(10 : ℝ) ^ 100 < ucbScore node c a) →
        ∃ b ∈ acts, ucb_select_action node acts c = some b ∧
          ∀ a ∈ acts, ucbScore node c a ≤ ucbScore node c b) := by
  refine ⟨?_, ?_, ?_⟩
  · intro node acts c a ha h0
    exact ucb_select_unvisited ha h0
  · intro acts node c vals hnodup hfresh
    exact runSelections_fresh acts [] node c vals (by simpa using hnodup)
      (by intro a ha; exact absurd ha (List.not_mem_nil a)) hfresh
  · intro node acts c hvis hfloor
    exact ucb_select_argmax hvis hfloor

/-- Witness for C6: from a fresh node over actions `[0, 1]` the first
two selections are `[0, 1]`; on a node with every action visited once
and zero returns the selection returns action `0`, whose score `0` is
maximal. -/
theorem claim_C6_witness :
    (((0 : Nat) ∈ [0, 1] ∧ (⟨0, fun _ => 0, fun _ => 0⟩ : InfoNode).na 0 = 0) ∧
      ∃ b ∈ [0, 1],
        ucb_select_action ⟨0, fun _ => 0, fun _ => 0⟩ [0, 1] 0 = some b ∧
          (⟨0, fun _ => 0, fun _ => 0⟩ : InfoNode).na b = 0) ∧
    runSelections 0 (fun _ => 0) [0, 1] 2 ⟨0, fun _ => 0, fun _ => 0⟩ = [0, 1] ∧
    (∃ b ∈ [0, 1],
      ucb_select_action ⟨1, fun _ => 1, fun _ => 0⟩ [0, 1] 0 = some b ∧
        ∀ a ∈ [0, 1],
          ucbScore ⟨1, fun _ => 1, fun _ => 0⟩ 0 a ≤
            ucbScore ⟨1, fun _ => 1, fun _ => 0⟩ 0 b) := by
  refine ⟨⟨⟨by simp, rfl⟩, ?_⟩, ?_, ?_⟩
  · exact claim_C6.1 ⟨0, fun _ => 0, fun _ => 0⟩ [0, 1] 0 0 (by simp) rfl
  · exact claim_C6.2.1 [0, 1] ⟨0, fun _ => 0, fun _ => 0⟩ 0 (fun _ => 0)
      (by simp) (fun _ _ => rfl)
  · exact claim_C6.2.2 ⟨1, fun _ => 1, fun _ => 0⟩ [0, 1] 0
      (fun _ _ => one_ne_zero)
      ⟨0, by simp, by norm_num [ucbScore]⟩


/-! ## C7: belief-range helper lemmas -/

/-- Renormalizing does not change the hands. -/
theorem renormalize_keys (r : Range) :
    (_renormalize r).map (fun p => p.1) = r.map (fun p => p.1) := by
  simp only [_renormalize]
  split
  · rfl
  · rw [List.map_map]
    rfl

/-- Scaling every weight scales the total. -/
theorem rangeSum_map_mul (r : Range) (t : ℚ) :
    rangeSum (r.map (fun hw => (hw.1, hw.2 * t))) = rangeSum r * t := by
  induction r with
  | nil => simp [rangeSum]
  | cons p rest ih =>
    simp only [rangeSum, List.map_cons, List.sum_cons] at *
    rw [ih]
    ring

/-- A nonempty range of positive weights has positive total. -/
theorem rangeSum_pos {r : Range} (hne : r ≠ [])
    (hpos : ∀ p ∈ r, 0 < p.2) : 0 < rangeSum r := by
  refine List.sum_pos _ ?_ ?_
  · intro x hx
    obtain ⟨p, hp, hpx⟩ := List.mem_map.mp hx
    exact hpx ▸ hpos p hp
  · simp only [ne_eq, List.map_eq_nil_iff]
    exact hne

/-- Renormalizing a positive-total range yields total `1`. -/
theorem rangeSum_renormalize {r : Range} (h : 0 < rangeSum r) :
    rangeSum (_renormalize r) = 1 := by
  simp only [_renormalize]
  rw [if_neg (not_le.mpr h), rangeSum_map_mul]
  field_simp

/-- Renormalizing a positive-total range keeps every weight positive. -/
theorem renormalize_pos {r : Range} (h : 0 < rangeSum r)
    (hpos : ∀ p ∈ r, 0 < p.2) : ∀ p ∈ _renormalize r, 0 < p.2 := by
  simp only [_renormalize]
  rw [if_neg (not_le.mpr h)]
  intro p hp
  obtain ⟨q, hq, hqp⟩ := List.mem_map.mp hp
  rw [← hqp]
  exact mul_pos (hpos q hq) (by positivity)

/-- Every weight of the uniform range is `1`. -/
theorem build_uniform_range_pos :
    ∀ (deck : List Nat), ∀ p ∈ build_uniform_range deck, p.2 = 1 := by
  intro deck
  induction deck with
  | nil => intro p hp; exact absurd hp (List.not_mem_nil p)
  | cons x xs ih =>
    intro p hp
    rw [build_uniform_range] at hp
    rcases List.mem_append.mp hp with hp | hp
    · obtain ⟨y, _, hyp⟩ := List.mem_map.mp hp
      rw [← hyp]
    · exact ih p hp

/-- The sorted items are a permutation of the scored entries. -/
theorem scoredSort_perm (score : Nat × Nat → ℤ) (r : Range) :
    (scoredSort score r).Perm (r.map (fun hw => (hw.1, hw.2, score hw.1))) :=
  List.mergeSort_perm _ _

/-- The sorted items are in weakly decreasing score order. -/
theorem scoredSort_sorted (score : Nat × Nat → ℤ) (r : Range) :
    (scoredSort score r).Pairwise (fun x y => y.2.2 ≤ x.2.2) := by
  have h := @List.sorted_mergeSort _
    (fun x y : (Nat × Nat) × ℚ × ℤ => decide (y.2.2 ≤ x.2.2))
    (fun a b c hab hbc => by
      simp only [decide_eq_true_eq] at *
      exact le_trans hbc hab)
    (fun a b => by
      simpa using le_total b.2.2 a.2.2)
    (r.map (fun hw => (hw.1, hw.2, score hw.1)))
  exact h.imp (fun hb => of_decide_eq_true hb)

/-- Sorting keeps the number of entries. -/
theorem scoredSort_length (score : Nat × Nat → ℤ) (r : Range) :
    (scoredSort score r).length = r.length := by
  simp [scoredSort]

/-- Every sorted item's middle component is one of the range weights. -/
theorem scoredSort_weight_pos {score : Nat × Nat → ℤ} {r : Range}
    (hpos : ∀ p ∈ r, 0 < p.2) :
    ∀ t ∈ scoredSort score r, 0 < t.2.1 := by
  intro t ht
  have hmem := (scoredSort_perm score r).mem_iff.mp ht
  obtain ⟨hw, hhw, hhwt⟩ := List.mem_map.mp hmem
  rw [← hhwt]
  exact hpos hw hhw

/-- The hands of the sorted items are the hands of the range, permuted. -/
theorem scoredSort_keys_perm (score : Nat × Nat → ℤ) (r : Range) :
    ((scoredSort score r).map (fun t => t.1)).Perm (r.map (fun p => p.1)) := by
  have h := (scoredSort_perm score r).map (fun t => t.1)
  rw [List.map_map] at h
  exact h

/-- The downweighting pass keeps the hands in sorted order. -/
theorem downweight_keys (items : List ((Nat × Nat) × ℚ × ℤ)) (k : Nat) (m : ℚ) :
    (downweight items k m).map (fun p => p.1) = items.map (fun t => t.1) := by
  simp only [downweight, List.map_map]
  refine List.map_congr_left ?_
  intro t _
  simp only [Function.comp]
  split <;> rfl

/-- The downweighting pass keeps the number of entries. -/
theorem downweight_length (items : List ((Nat × Nat) × ℚ × ℤ)) (k : Nat) (m : ℚ) :
    (downweight items k m).length = items.length := by
  simp [downweight]

/-- With a positive multiplier, the downweighting pass keeps every
weight positive. -/
theorem downweight_pos (items : List ((Nat × Nat) × ℚ × ℤ)) (k : Nat) (m : ℚ)
    (hm : 0 < m) (hpos : ∀ t ∈ items, 0 < t.2.1) :
    ∀ p ∈ downweight items k m, 0 < p.2 := by
  intro p hp
  simp only [downweight] at hp
  obtain ⟨t, ht, htp⟩ := List.mem_map.mp hp
  rw [← htp]
  split
  · simpa using hpos t ht
  · exact mul_pos (hpos t ht) hm

/-- The outside multiplier is positive for every action code. -/
theorem OUTSIDE_MULT_pos (act : Nat) : 0 < OUTSIDE_MULT act := by
  rw [OUTSIDE_MULT]
  split
  · norm_num
  · split
    · norm_num
    · split <;> norm_num

/-- The cutoff index is at least `1`. -/
theorem cutoff_idx_pos (top_frac : ℚ) (n : Nat) : 1 ≤ cutoff_idx top_frac n := by
  rw [cutoff_idx]
  have h1 : (1 : ℤ) ≤ max 1 (roundHalfEven (top_frac * n)) := le_max_left _ _
  omega


/-- With distinct hands, the downweighting pass is: the first `k`
entries at full weight, the remaining entries multiplied by `m`. -/
theorem downweight_eq {items : List ((Nat × Nat) × ℚ × ℤ)} (k : Nat) (m : ℚ)
    (hnodup : (items.map (fun t => t.1)).Nodup) :
    downweight items k m =
      (items.take k).map (fun t => (t.1, t.2.1)) ++
        (items.drop k).map (fun t => (t.1, t.2.1 * m)) := by
  have hkeys : items.map (fun t => t.1) =
      (items.take k).map (fun t => t.1) ++ (items.drop k).map (fun t => t.1) := by
    rw [← List.map_append, List.take_append_drop]
  rw [hkeys] at hnodup
  have hdisj := (List.nodup_append.mp hnodup).2.2
  simp only [downweight]
  generalize hts : (items.take k).map (fun t => t.1) = ts
  rw [hts] at hdisj
  conv_lhs => rw [← List.take_append_drop k items]
  rw [List.map_append]
  congr 1
  · refine List.map_congr_left ?_
    intro t ht
    rw [if_pos (hts ▸ List.mem_map_of_mem (fun t => t.1) ht), mul_one]
  · refine List.map_congr_left ?_
    intro t ht
    rw [if_neg ?_]
    intro hmem
    exact hdisj hmem (List.mem_map_of_mem (fun t => t.1) ht)

/-- For an action with top fraction `frac` and a nonempty range,
`_apply_action_update` is renormalized downweighting at cutoff
`cutoff_idx frac |r|`. -/
theorem apply_action_update_spec (score : Nat × Nat → ℤ) {r : Range}
    {act : Nat} {frac : ℚ} (hfrac : ACTION_TOP_FRAC act = some frac)
    (hne : r ≠ []) :
    _apply_action_update score r act =
      _renormalize (downweight (scoredSort score r)
        (cutoff_idx frac r.length) (OUTSIDE_MULT act)) := by
  simp only [_apply_action_update, hfrac, scoredSort_length]
  rw [if_neg ?_]
  simpa using hne

/-- Core behaviour of `_apply_action_update` for an action carrying a
top fraction: the hands are permuted, positivity is preserved, and the
total becomes `1`. -/
theorem update_spec_core (score : Nat × Nat → ℤ) {r : Range} {act : Nat}
    {frac : ℚ} (hfrac : ACTION_TOP_FRAC act = some frac) (hne : r ≠ [])
    (hpos : ∀ p ∈ r, 0 < p.2) :
    ((_apply_action_update score r act).map (fun p => p.1)).Perm
        (r.map (fun p => p.1)) ∧
      (∀ p ∈ _apply_action_update score r act, 0 < p.2) ∧
      rangeSum (_apply_action_update score r act) = 1 := by
  rw [apply_action_update_spec score hfrac hne]
  have hdkeys := downweight_keys (scoredSort score r)
    (cutoff_idx frac r.length) (OUTSIDE_MULT act)
  have hdne : downweight (scoredSort score r)
      (cutoff_idx frac r.length) (OUTSIDE_MULT act) ≠ [] := by
    intro hnil
    have := downweight_length (scoredSort score r)
      (cutoff_idx frac r.length) (OUTSIDE_MULT act)
    rw [hnil, scoredSort_length] at this
    exact hne (List.length_eq_zero.mp this.symm)
  have hdpos := downweight_pos (scoredSort score r)
    (cutoff_idx frac r.length) (OUTSIDE_MULT act) (OUTSIDE_MULT_pos act)
    (scoredSort_weight_pos hpos)
  have hsum := rangeSum_pos hdne hdpos
  refine ⟨?_, renormalize_pos hsum hdpos, rangeSum_renormalize hsum⟩
  rw [renormalize_keys, hdkeys]
  exact scoredSort_keys_perm score r

/-- `_apply_action_update` for any action code: the hands are permuted
and positivity is preserved. -/
theorem update_preserves (score : Nat × Nat → ℤ) {r : Range} (act : Nat)
    (hne : r ≠ []) (hpos : ∀ p ∈ r, 0 < p.2) :
    ((_apply_action_update score r act).map (fun p => p.1)).Perm
        (r.map (fun p => p.1)) ∧
      ∀ p ∈ _apply_action_update score r act, 0 < p.2 := by
  cases hfrac : ACTION_TOP_FRAC act with
  | none =>
    simp only [_apply_action_update, hfrac]
    exact ⟨List.Perm.refl _, hpos⟩
  | some frac =>
    obtain ⟨h1, h2, _⟩ := update_spec_core score hfrac hne hpos
    exact ⟨h1, h2⟩

/-- The history fold of `range_from_history_weighted` preserves the
hand set (as a permutation) and weight positivity. -/
theorem foldl_update_preserves (score : Nat × Nat → ℤ)
    (uniformKeys : List (Nat × Nat)) (hune : uniformKeys ≠ []) :
    ∀ (history : List Nat) (r : Range),
      ((r.map (fun p => p.1)).Perm uniformKeys) → (∀ p ∈ r, 0 < p.2) →
      (((history.foldl
          (fun r enc =>
            if (Action.decode enc).player ≠ Player.VILLAIN then r
            else _apply_action_update score r (Action.decode enc).act)
          r).map (fun p => p.1)).Perm uniformKeys) ∧
        ∀ p ∈ history.foldl
          (fun r enc =>
            if (Action.decode enc).player ≠ Player.VILLAIN then r
            else _apply_action_update score r (Action.decode enc).act)
          r, 0 < p.2 := by
  intro history
  induction history with
  | nil => intro r hperm hpos; exact ⟨hperm, hpos⟩
  | cons enc rest ih =>
    intro r hperm hpos
    rw [List.foldl_cons]
    by_cases hpl : (Action.decode enc).player ≠ Player.VILLAIN
    · rw [if_pos hpl]
      exact ih r hperm hpos
    · rw [if_neg hpl]
      have hrne : r ≠ [] := by
        intro hnil
        rw [hnil] at hperm
        exact hune hperm.symm.eq_nil
      obtain ⟨h1, h2⟩ := update_preserves score (Action.decode enc).act hrne hpos
      exact ih _ (h1.trans hperm) h2


/-- Claim C7: `range_from_history_weighted` starts from the uniform
range; `_apply_action_update` leaves the range unchanged on
CALL/CHECK/FOLD; on BET/RAISE/ALLIN it sorts the combos by score
descending, keeps the top `max(1, round(frac*n))` combos (frac =
80%/30%/10%) at full weight, multiplies every combo outside the top set
by the positive constant 1.0/0.8/0.2 — so every combo keeps positive
weight — and renormalizes the total to `1`; and the full pipeline
preserves the uniform support with positive weights summing to `1`. -/
theorem claim_C7 :
    (∀ (score : Nat × Nat → ℤ) (r : Range) (act : Nat),
        act = Act.CALL ∨ act = Act.CHECK ∨ act = Act.FOLD →
        _apply_action_update score r act = r) ∧
    (∀ (score : Nat × Nat → ℤ) (r : Range) (act : Nat) (frac : ℚ),
        ((act = Act.BET ∧ frac = 80 / 100) ∨
          (act = Act.RAISE ∧ frac = 30 / 100) ∨
          (act = Act.ALLIN ∧ frac = 10 / 100)) →
        r ≠ [] → (∀ p ∈ r, 0 < p.2) →
        ((r.map (fun p => p.1)).Nodup) →
        ∃ (items : List ((Nat × Nat) × ℚ × ℤ)) (k : Nat),
          items.Perm (r.map (fun hw => (hw.1, hw.2, score hw.1))) ∧
          items.Pairwise (fun x y => y.2.2 ≤ x.2.2) ∧
          items = scoredSort score r ∧
          k = cutoff_idx frac r.length ∧
          1 ≤ k ∧
          0 < OUTSIDE_MULT act ∧
          _apply_action_update score r act =
            _renormalize ((items.take k).map (fun t => (t.1, t.2.1)) ++
              (items.drop k).map (fun t => (t.1, t.2.1 * OUTSIDE_MULT act))) ∧
          ((_apply_action_update score r act).map (fun p => p.1)).Perm
            (r.map (fun p => p.1)) ∧
          (∀ p ∈ _apply_action_update score r act, 0 < p.2) ∧
          rangeSum (_apply_action_update score r act) = 1) ∧
    (∀ (score : Nat × Nat → ℤ) (deck : List Nat) (history : List Nat),
        build_uniform_range deck ≠ [] →
        ((build_uniform_range deck).map (fun p => p.1)).Nodup →
        ((range_from_history_weighted score deck history).map
            (fun p => p.1)).Perm
          ((build_uniform_range deck).map (fun p => p.1)) ∧
        (∀ p ∈ range_from_history_weighted score deck history, 0 < p.2) ∧
        rangeSum (range_from_history_weighted score deck history) = 1) := by
  refine ⟨?_, ?_, ?_⟩
  · intro score r act hact
    rcases hact with rfl | rfl | rfl <;> rfl
  · intro score r act frac hact hne hpos hnodup
    have hfrac : ACTION_TOP_FRAC act = some frac := by
      rcases hact with ⟨rfl, rfl⟩ | ⟨rfl, rfl⟩ | ⟨rfl, rfl⟩ <;> rfl
    have hnodup' : ((scoredSort score r).map (fun t => t.1)).Nodup :=
      ((scoredSort_keys_perm score r).nodup_iff).mpr hnodup
    obtain ⟨h8, h9, h10⟩ := update_spec_core score hfrac hne hpos
    refine ⟨scoredSort score r, cutoff_idx frac r.length,
      scoredSort_perm score r, scoredSort_sorted score r, rfl, rfl,
      cutoff_idx_pos frac r.length, OUTSIDE_MULT_pos act, ?_, h8, h9, h10⟩
    rw [apply_action_update_spec score hfrac hne,
      downweight_eq (cutoff_idx frac r.length) (OUTSIDE_MULT act) hnodup']
  · intro score deck history hne hnodup
    have hupos : ∀ p ∈ build_uniform_range deck, 0 < p.2 := by
      intro p hp
      rw [build_uniform_range_pos deck p hp]
      norm_num
    have husum : 0 < rangeSum (build_uniform_range deck) :=
      rangeSum_pos hne hupos
    have hukeys_ne : (build_uniform_range deck).map (fun p => p.1) ≠ [] := by
      simpa using hne
    have hr0keys := renormalize_keys (build_uniform_range deck)
    have hr0pos := renormalize_pos husum hupos
    obtain ⟨hfker, hfpos⟩ := foldl_update_preserves score
      ((build_uniform_range deck).map (fun p => p.1)) hukeys_ne history
      (_renormalize (build_uniform_range deck))
      (hr0keys ▸ List.Perm.refl _) hr0pos
    have hfne : history.foldl
        (fun r enc =>
          if (Action.decode enc).player ≠ Player.VILLAIN then r
          else _apply_action_update score r (Action.decode enc).act)
        (_renormalize (build_uniform_range deck)) ≠ [] := by
      intro hnil
      rw [hnil] at hfker
      exact hukeys_ne hfker.symm.eq_nil
    have hfsum := rangeSum_pos hfne hfpos
    refine ⟨?_, renormalize_pos hfsum hfpos, rangeSum_renormalize hfsum⟩
    show ((_renormalize _).map (fun p => p.1)).Perm _
    rw [renormalize_keys]
    exact hfker

/-- Witness for C7: a CALL leaves a one-hand range unchanged; an ALLIN
on a two-hand range renormalizes to total `1`; the empty-history
pipeline over deck `[0, 1, 2]` yields positive weights of total `1`. -/
theorem claim_C7_witness :
    _apply_action_update (fun _ => 0) [((0, 1), 1)] Act.CALL = [((0, 1), 1)] ∧
    ((([((0, 1), (1 : ℚ)), ((0, 2), 1)] : Range) ≠ [] ∧
        (∀ p ∈ ([((0, 1), (1 : ℚ)), ((0, 2), 1)] : Range), 0 < p.2) ∧
        (([((0, 1), (1 : ℚ)), ((0, 2), 1)] : Range).map (fun p => p.1)).Nodup) ∧
      rangeSum (_apply_action_update (fun _ => 0)
        [((0, 1), 1), ((0, 2), 1)] Act.ALLIN) = 1) ∧
    ((build_uniform_range [0, 1, 2] ≠ [] ∧
        ((build_uniform_range [0, 1, 2]).map (fun p => p.1)).Nodup) ∧
      (∀ p ∈ range_from_history_weighted (fun _ => 0) [0, 1, 2] [], 0 < p.2) ∧
      rangeSum (range_from_history_weighted (fun _ => 0) [0, 1, 2] []) = 1) := by
  have hne2 : ([((0, 1), (1 : ℚ)), ((0, 2), 1)] : Range) ≠ [] := by simp
  have hpos2 : ∀ p ∈ ([((0, 1), (1 : ℚ)), ((0, 2), 1)] : Range), 0 < p.2 := by
    norm_num
  have hnd2 : (([((0, 1), (1 : ℚ)), ((0, 2), 1)] : Range).map
      (fun p => p.1)).Nodup := by
    norm_num
  have hne3 : build_uniform_range [0, 1, 2] ≠ [] := by decide
  have hnd3 : ((build_uniform_range [0, 1, 2]).map (fun p => p.1)).Nodup := by
    decide
  refine ⟨claim_C7.1 (fun _ => 0) [((0, 1), 1)] Act.CALL (Or.inl rfl),
    ⟨⟨hne2, hpos2, hnd2⟩, ?_⟩, ⟨⟨hne3, hnd3⟩, ?_, ?_⟩⟩
  · obtain ⟨items, k, h1, h2, h3, h4, h5, h6, h7, h8, h9, h10⟩ :=
      claim_C7.2.1 (fun _ => 0) [((0, 1), 1), ((0, 2), 1)] Act.ALLIN (10 / 100)
        (Or.inr (Or.inr ⟨rfl, rfl⟩)) hne2 hpos2 hnd2
    exact h10
  · exact (claim_C7.2.2 (fun _ => 0) [0, 1, 2] [] hne3 hnd3).2.1
  · exact (claim_C7.2.2 (fun _ => 0) [0, 1, 2] [] hne3 hnd3).2.2

end Poker
